import Mathlib

set_option maxRecDepth 100000

/-!
Verification of the contentive-classify-app backend core.

This file gives a shallow embedding, in Lean 4, of the algorithmic core of
the repository:

* `backend/iab_taxonomy.py` — taxonomy ingestion and deterministic code
  assignment (`parse_iab_tsv`, `_assign_children`);
* `backend/mcp_server.py` — URL normalization (`normalize_url`), IAB code
  validation (`_normalize_and_validate_iab`), segment filtering
  (`matches_iab`);
* `backend/merge_attribution_with_classification.py` — the reconciliation
  engine (`merge_attribution_data`, `_process_url_merge`,
  `_create_merged_record`, `_save_merged_record`);
* `backend/firebase_service.py` — document-id derivation (`_create_doc_id`,
  an MD5 of the URL).

Python dictionaries with optional keys are modelled with `Option`-valued
fields; a field of type `Option PyVal` distinguishes an absent key
(`Option.none`) from a key that is present with value `None`
(`some PyVal.none`).  Python `float` arithmetic is modelled with exact
rationals (`ℚ`); Python `int`/`float` are separate constructors so that
`isinstance` checks can be translated.  External I/O (the Firestore client)
is modelled by explicit state passing: collection loads are `Except`
values and the merged collection is an association list keyed by document
id, with `set` as upsert.
-/

namespace Contentive

/-- Python value occurring in the loosely-typed record dictionaries:
`None`, a string, an `int`, or a `float` (modelled as an exact rational). -/
inductive PyVal where
  | none : PyVal
  | str : String → PyVal
  | int : Int → PyVal
  | float : ℚ → PyVal
deriving DecidableEq, Repr

/-- Python dict access `record.get(field)`: an absent key yields `None`. -/
def pyGet (field : Option PyVal) : PyVal :=
  field.getD PyVal.none

/-- Value of `chars.foldl` digit accumulation, used by the float parser. -/
def natOfDigits (cs : List Char) : Nat :=
  cs.foldl (fun a c => a * 10 + (c.toNat - 48)) 0

/-- Suffix of the float parser handling an optional exponent part.
Modelled from Python float literal syntax; `inf`/`nan` spellings are not
modelled (no claim depends on them). -/
def parse_exponent_suffix (base : ℚ) (cs : List Char) : Option ℚ :=
  match cs with
  | [] => some base
  | e :: rest =>
      if e = 'e' ∨ e = 'E' then
        let (neg, ds) :=
          match rest with
          | '-' :: t => (true, t)
          | '+' :: t => (false, t)
          | t => (false, t)
        if ds.isEmpty ∨ ¬ ds.all Char.isDigit then none
        else
          let ex := natOfDigits ds
          some (if neg then base / 10 ^ ex else base * 10 ^ ex)
      else none

/-- Unsigned part of Python `float(str)`: digits with an optional fraction
and exponent. -/
def parse_unsigned_float (cs : List Char) : Option ℚ :=
  let intPart := cs.takeWhile Char.isDigit
  let rest := cs.dropWhile Char.isDigit
  match rest with
  | [] => if intPart.isEmpty then none else some (natOfDigits intPart)
  | c :: rest2 =>
      if c = '.' then
        let fracPart := rest2.takeWhile Char.isDigit
        let rest3 := rest2.dropWhile Char.isDigit
        if intPart.isEmpty ∧ fracPart.isEmpty then none
        else
          parse_exponent_suffix
            ((natOfDigits intPart : ℚ) + (natOfDigits fracPart : ℚ) / 10 ^ fracPart.length)
            rest3
      else if intPart.isEmpty then none
      else parse_exponent_suffix (natOfDigits intPart) rest

/-- Python whitespace characters recognised by `str.strip()` (ASCII subset;
the exotic Unicode space characters are not modelled). -/
def isPySpace (c : Char) : Bool :=
  c = ' ' || c = '\t' || c = '\n' || c = '\r' || c = '\x0b' || c = '\x0c'

/-- Python `str.strip()` (ASCII-whitespace subset). -/
def pyStrip (s : String) : String :=
  ⟨(s.toList.dropWhile isPySpace).reverse.dropWhile isPySpace |>.reverse⟩

/-- Python `str.lower()` (ASCII case folding; sufficient for the code
points the claims exercise). -/
def pyLower (s : String) : String :=
  ⟨s.toList.map Char.toLower⟩

/-- Python `float(str)` on a plain decimal literal with optional sign,
fraction and exponent, after whitespace stripping. -/
def parse_float_str (s : String) : Option ℚ :=
  match (pyStrip s).toList with
  | '-' :: t => (parse_unsigned_float t).map (fun q => -q)
  | '+' :: t => parse_unsigned_float t
  | t => parse_unsigned_float t

/-- Lexicographic strict order on character lists (Python string `<`,
comparing code points). -/
def charListLT : List Char → List Char → Bool
  | [], [] => false
  | [], _ :: _ => true
  | _ :: _, [] => false
  | a :: l, b :: r => if a < b then true else if b < a then false else charListLT l r

/-- Python string `<=` (total order, so `s <= t` iff `not (t < s)`). -/
def pyStrLE (s t : String) : Bool := !charListLT t.toList s.toList

/-- Python `s.startswith(pre)` (on whole strings). -/
def pyStartsWith (s pre : String) : Bool := pre.toList.isPrefixOf s.toList

/-- Merge two runs, taking from the left on ties (stability).  The fuel
argument makes the recursion structural; `l.length + r.length` steps
always suffice. -/
def merge_lists {α : Type} (le : α → α → Bool) : Nat → List α → List α → List α
  | 0, l, r => l ++ r
  | _ + 1, [], r => r
  | _ + 1, a :: l, [] => a :: l
  | fuel + 1, a :: l, b :: r =>
      if le a b then a :: merge_lists le fuel l (b :: r)
      else b :: merge_lists le fuel (a :: l) r

/-- Fuelled stable merge sort on contiguous halves. -/
def msort {α : Type} (le : α → α → Bool) : Nat → List α → List α
  | 0, l => l
  | fuel + 1, l =>
      match l with
      | [] => []
      | [a] => [a]
      | l =>
          let n := (l.length + 1) / 2
          merge_lists le l.length (msort le fuel (l.take n)) (msort le fuel (l.drop n))

/-- Python `list.sort` / `sorted` with a key-based comparator: a stable
sort (any two stable sorts under the same total preorder agree, so this
models CPython timsort extensionally). -/
def pySort {α : Type} (le : α → α → Bool) (l : List α) : List α :=
  msort le l.length l

/-- Python `float(value)` as used inside `_create_merged_record`: `None`
raises `TypeError` (modelled as `none`), numbers convert, strings are
parsed as decimal literals. -/
def pyFloat (v : PyVal) : Option ℚ :=
  match v with
  | .none => none
  | .int n => some n
  | .float q => some q
  | .str s => parse_float_str s

namespace SegmentFilter

/-- Embedding of `matches_iab` from `_fetch_merged_with_filters`
(`backend/mcp_server.py`, lines 459-468).  The record is represented by its
two classification code fields; `rec.get(...) or ''` maps an absent field
to the empty string. -/
def matches_iab (classification_iab_code classification_iab_secondary_code : Option String)
    (include_iab exclude_iab : List String) : Bool :=
  let primary := classification_iab_code.getD ""
  let secondary := classification_iab_secondary_code.getD ""
  if !include_iab.isEmpty && !(include_iab.contains primary || include_iab.contains secondary) then
    false
  else if !exclude_iab.isEmpty && (exclude_iab.contains primary || exclude_iab.contains secondary) then
    false
  else
    true

end SegmentFilter

namespace MD5

/-! MD5 (RFC 1321), the hash behind `FirebaseService._create_doc_id`
(`hashlib.md5(url.encode()).hexdigest()`).  Words are `Nat` reduced
modulo 2^32; messages are lists of byte values. -/

/-- 2^32, the word modulus. -/
def M32 : Nat := 4294967296

/-- Addition modulo 2^32. -/
def addw (a b : Nat) : Nat := (a + b) % M32

/-- Left rotation of a 32-bit word. -/
def rotl (x n : Nat) : Nat := (((x % M32) <<< n) ||| ((x % M32) >>> (32 - n))) % M32

/-- Bitwise complement of a 32-bit word. -/
def notw (x : Nat) : Nat := (x % M32) ^^^ 4294967295

/-- Round function F. -/
def fF (x y z : Nat) : Nat := (x &&& y) ||| (notw x &&& z)

/-- Round function G. -/
def fG (x y z : Nat) : Nat := (x &&& z) ||| (y &&& notw z)

/-- Round function H. -/
def fH (x y z : Nat) : Nat := x ^^^ y ^^^ z

/-- Round function I. -/
def fI (x y z : Nat) : Nat := y ^^^ (x ||| notw z)

/-- The 64 sine-derived round constants. -/
def kTable : List Nat :=
  [0xd76aa478, 0xe8c7b756, 0x242070db, 0xc1bdceee,
   0xf57c0faf, 0x4787c62a, 0xa8304613, 0xfd469501,
   0x698098d8, 0x8b44f7af, 0xffff5bb1, 0x895cd7be,
   0x6b901122, 0xfd987193, 0xa679438e, 0x49b40821,
   0xf61e2562, 0xc040b340, 0x265e5a51, 0xe9b6c7aa,
   0xd62f105d, 0x02441453, 0xd8a1e681, 0xe7d3fbc8,
   0x21e1cde6, 0xc33707d6, 0xf4d50d87, 0x455a14ed,
   0xa9e3e905, 0xfcefa3f8, 0x676f02d9, 0x8d2a4c8a,
   0xfffa3942, 0x8771f681, 0x6d9d6122, 0xfde5380c,
   0xa4beea44, 0x4bdecfa9, 0xf6bb4b60, 0xbebfbc70,
   0x289b7ec6, 0xeaa127fa, 0xd4ef3085, 0x04881d05,
   0xd9d4d039, 0xe6db99e5, 0x1fa27cf8, 0xc4ac5665,
   0xf4292244, 0x432aff97, 0xab9423a7, 0xfc93a039,
   0x655b59c3, 0x8f0ccc92, 0xffeff47d, 0x85845dd1,
   0x6fa87e4f, 0xfe2ce6e0, 0xa3014314, 0x4e0811a1,
   0xf7537e82, 0xbd3af235, 0x2ad7d2bb, 0xeb86d391]

/-- The 64 per-round rotation amounts. -/
def sTable : List Nat :=
  [7, 12, 17, 22, 7, 12, 17, 22, 7, 12, 17, 22, 7, 12, 17, 22,
   5, 9, 14, 20, 5, 9, 14, 20, 5, 9, 14, 20, 5, 9, 14, 20,
   4, 11, 16, 23, 4, 11, 16, 23, 4, 11, 16, 23, 4, 11, 16, 23,
   6, 10, 15, 21, 6, 10, 15, 21, 6, 10, 15, 21, 6, 10, 15, 21]

/-- Little-endian 8-byte encoding of the bit-length field. -/
def lenBytes (n : Nat) : List Nat :=
  (List.range 8).map (fun i => n / 256 ^ i % 256)

/-- MD5 padding: a 0x80 byte, zeros to 56 mod 64, then the 64-bit
little-endian bit length. -/
def padBytes (msg : List Nat) : List Nat :=
  let len := msg.length
  let zeros := (119 - len % 64) % 64
  msg ++ [128] ++ List.replicate zeros 0 ++ lenBytes (len * 8 % 2 ^ 64)

/-- Split a byte list into 64-byte blocks (structural recursion on a fuel
bound so the definition reduces in the kernel; `l.length` steps always
suffice because every step drops at least one byte). -/
def chunksAux (fuel : Nat) (l : List Nat) : List (List Nat) :=
  match fuel, l with
  | 0, _ => []
  | _, [] => []
  | Nat.succ f, l => l.take 64 :: chunksAux f (l.drop 64)

/-- Split a byte list into 64-byte blocks. -/
def chunks (l : List Nat) : List (List Nat) :=
  chunksAux l.length l

/-- Word `j` of a 64-byte block, little-endian. -/
def leWord (blk : List Nat) (j : Nat) : Nat :=
  blk.getD (4 * j) 0 + 256 * blk.getD (4 * j + 1) 0 +
    65536 * blk.getD (4 * j + 2) 0 + 16777216 * blk.getD (4 * j + 3) 0

/-- One of the 64 MD5 rounds. -/
def step (m : Nat → Nat) (st : Nat × Nat × Nat × Nat) (i : Nat) : Nat × Nat × Nat × Nat :=
  match st with
  | (a, b, c, d) =>
      let fg : Nat × Nat :=
        if i < 16 then (fF b c d, i)
        else if i < 32 then (fG b c d, (5 * i + 1) % 16)
        else if i < 48 then (fH b c d, (3 * i + 5) % 16)
        else (fI b c d, 7 * i % 16)
      let tmp := addw (addw (addw a fg.1) (kTable.getD i 0)) (m fg.2)
      (d, addw b (rotl tmp (sTable.getD i 0)), b, c)

/-- The running 128-bit state. -/
structure Digest where
  a : Nat
  b : Nat
  c : Nat
  d : Nat
deriving DecidableEq, Repr

/-- RFC 1321 initial state. -/
def initDigest : Digest := ⟨0x67452301, 0xefcdab89, 0x98badcfe, 0x10325476⟩

/-- Compress one 64-byte block into the state. -/
def processBlock (h : Digest) (blk : List Nat) : Digest :=
  match (List.range 64).foldl (step (leWord blk)) (h.a, h.b, h.c, h.d) with
  | (a, b, c, d) => ⟨addw h.a a, addw h.b b, addw h.c c, addw h.d d⟩

/-- MD5 of a byte list, as the four state words. -/
def md5_digest (msg : List Nat) : Digest :=
  (chunks (padBytes msg)).foldl processBlock initDigest

/-- Lowercase hex digit. -/
def hexDigitChar (n : Nat) : Char :=
  if n < 10 then Char.ofNat (48 + n) else Char.ofNat (87 + n)

/-- Two hex characters of one byte. -/
def byteHexChars (b : Nat) : List Char :=
  [hexDigitChar (b / 16 % 16), hexDigitChar (b % 16)]

/-- Eight hex characters of one word, little-endian byte order as in
`hexdigest()`. -/
def wordHexChars (w : Nat) : List Char :=
  byteHexChars (w % 256) ++ byteHexChars (w / 256 % 256) ++
    byteHexChars (w / 65536 % 256) ++ byteHexChars (w / 16777216 % 256)

/-- `hashlib.md5(msg).hexdigest()`. -/
def hexdigest (msg : List Nat) : String :=
  ⟨wordHexChars (md5_digest msg).a ++ wordHexChars (md5_digest msg).b ++
    wordHexChars (md5_digest msg).c ++ wordHexChars (md5_digest msg).d⟩

end MD5

namespace FirebaseService

/-- UTF-8 encoding of one code point. -/
def utf8EncodeCharNat (c : Char) : List Nat :=
  let n := c.toNat
  if n < 0x80 then [n]
  else if n < 0x800 then
    [0xC0 ||| (n >>> 6), 0x80 ||| (n &&& 0x3F)]
  else if n < 0x10000 then
    [0xE0 ||| (n >>> 12), 0x80 ||| ((n >>> 6) &&& 0x3F), 0x80 ||| (n &&& 0x3F)]
  else
    [0xF0 ||| (n >>> 18), 0x80 ||| ((n >>> 12) &&& 0x3F),
     0x80 ||| ((n >>> 6) &&& 0x3F), 0x80 ||| (n &&& 0x3F)]

/-- `url.encode()`: the UTF-8 bytes of the string. -/
def utf8_bytes (s : String) : List Nat :=
  (s.toList.map utf8EncodeCharNat).flatten

/-- Embedding of `FirebaseService._create_doc_id`
(`backend/firebase_service.py`, lines 121-135): the document id is
`"url_"` followed by the MD5 hexdigest of the URL. -/
def create_doc_id (url : String) : String :=
  "url_" ++ MD5.hexdigest (utf8_bytes url)

end FirebaseService

namespace ReconciliationEngine

/-! Embedding of `backend/merge_attribution_with_classification.py`.
Collections loaded from the document store are explicit inputs; the
`stream()` calls that may raise are `Except` values; persisting one merged
record may fail (modelled by a predicate on the URL being saved, since
`doc_ref.set` either succeeds or raises for that document).  A record's
`url` field is `Option String`: `none` models a dictionary without the
`'url'` key, on which `record['url']` raises `KeyError`. -/

/-- Attribution record shape consumed by the merge
(`attribution_data` collection). -/
structure AttrRec where
  url : Option String := none
  conversions : Option PyVal := none
  revenue : Option PyVal := none
  impressions : Option PyVal := none
  clicks : Option PyVal := none
  ctr : Option PyVal := none
  scroll_depth : Option PyVal := none
  viewability : Option PyVal := none
  time_on_page : Option PyVal := none
  fill_rate : Option PyVal := none
  user_id : Option PyVal := none
  uploaded_at : Option PyVal := none
deriving DecidableEq, Repr

/-- Classification record shape consumed by the merge
(`classified_urls` collection). -/
structure ClassRec where
  url : Option String := none
  iab_category : Option PyVal := none
  iab_code : Option PyVal := none
  iab_subcategory : Option PyVal := none
  iab_subcode : Option PyVal := none
  iab_secondary_category : Option PyVal := none
  iab_secondary_code : Option PyVal := none
  iab_secondary_subcategory : Option PyVal := none
  iab_secondary_subcode : Option PyVal := none
  tone : Option PyVal := none
  intent : Option PyVal := none
  audience : Option PyVal := none
  keywords : Option PyVal := none
  buying_intent : Option PyVal := none
  ad_suggestions : Option PyVal := none
  timestamp : Option PyVal := none
deriving DecidableEq, Repr

/-- MergedSignal record written to `merged_content_signals` (the
`merged_at` wall-clock field is external time and is not modelled). -/
structure MergedRec where
  url : String
  has_attribution_data : Bool
  has_classification_data : Bool
  attribution_conversions : Option PyVal := none
  attribution_revenue : Option PyVal := none
  attribution_impressions : Option PyVal := none
  attribution_clicks : Option PyVal := none
  attribution_ctr : Option PyVal := none
  attribution_scroll_depth : Option PyVal := none
  attribution_viewability : Option PyVal := none
  attribution_time_on_page : Option PyVal := none
  attribution_fill_rate : Option PyVal := none
  attribution_user_id : Option PyVal := none
  attribution_uploaded_at : Option PyVal := none
  classification_iab_category : Option PyVal := none
  classification_iab_code : Option PyVal := none
  classification_iab_subcategory : Option PyVal := none
  classification_iab_subcode : Option PyVal := none
  classification_iab_secondary_category : Option PyVal := none
  classification_iab_secondary_code : Option PyVal := none
  classification_iab_secondary_subcategory : Option PyVal := none
  classification_iab_secondary_subcode : Option PyVal := none
  classification_tone : Option PyVal := none
  classification_intent : Option PyVal := none
  classification_audience : Option PyVal := none
  classification_keywords : Option PyVal := none
  classification_buying_intent : Option PyVal := none
  classification_ad_suggestions : Option PyVal := none
  classification_timestamp : Option PyVal := none
deriving DecidableEq, Repr

/-- The `ctr_is_valid` test of `_create_merged_record` (lines 205-208):
`uploaded_ctr is not None and uploaded_ctr != '' and
isinstance(uploaded_ctr, (int, float)) and not (isinstance(uploaded_ctr,
float) and uploaded_ctr.is_integer() and uploaded_ctr == 0)`.  A float is
simultaneously integral and equal to zero exactly when it is 0. -/
def ctr_is_valid (uploaded_ctr : PyVal) : Bool :=
  match uploaded_ctr with
  | .none => false
  | .str _ => false
  | .int _ => true
  | .float q => !(q == 0)

/-- The CTR the merge derives, if any (lines 199-221): only when the
uploaded value is invalid, both clicks and impressions are non-`None`,
both convert with `float()`, and the impression count is positive. -/
def derived_ctr (a : AttrRec) : Option ℚ :=
  let uploaded_ctr := pyGet a.ctr
  let clicks := pyGet a.clicks
  let impressions := pyGet a.impressions
  if !ctr_is_valid uploaded_ctr && !(clicks == PyVal.none) && !(impressions == PyVal.none) then
    match pyFloat clicks, pyFloat impressions with
    | some clicks_val, some impressions_val =>
        if 0 < impressions_val then some (clicks_val / impressions_val * 100) else none
    | _, _ => none
  else none

/-- Embedding of `_create_merged_record` (lines 174-237): namespaced
copies of the present source fields, the `has_*` flags, and the CTR
derivation overwriting `attribution_ctr` when it applies. -/
def create_merged_record (url : String) (attribution_record : Option AttrRec)
    (classification_record : Option ClassRec) : Option MergedRec :=
  match attribution_record, classification_record with
  | none, none => none
  | a, c =>
      some
        { url := url
          has_attribution_data := a.isSome
          has_classification_data := c.isSome
          attribution_conversions := a.bind (·.conversions)
          attribution_revenue := a.bind (·.revenue)
          attribution_impressions := a.bind (·.impressions)
          attribution_clicks := a.bind (·.clicks)
          attribution_ctr :=
            match a with
            | none => none
            | some ar =>
                match derived_ctr ar with
                | some q => some (.float q)
                | none => ar.ctr
          attribution_scroll_depth := a.bind (·.scroll_depth)
          attribution_viewability := a.bind (·.viewability)
          attribution_time_on_page := a.bind (·.time_on_page)
          attribution_fill_rate := a.bind (·.fill_rate)
          attribution_user_id := a.bind (·.user_id)
          attribution_uploaded_at := a.bind (·.uploaded_at)
          classification_iab_category := c.bind (·.iab_category)
          classification_iab_code := c.bind (·.iab_code)
          classification_iab_subcategory := c.bind (·.iab_subcategory)
          classification_iab_subcode := c.bind (·.iab_subcode)
          classification_iab_secondary_category := c.bind (·.iab_secondary_category)
          classification_iab_secondary_code := c.bind (·.iab_secondary_code)
          classification_iab_secondary_subcategory := c.bind (·.iab_secondary_subcategory)
          classification_iab_secondary_subcode := c.bind (·.iab_secondary_subcode)
          classification_tone := c.bind (·.tone)
          classification_intent := c.bind (·.intent)
          classification_audience := c.bind (·.audience)
          classification_keywords := c.bind (·.keywords)
          classification_buying_intent := c.bind (·.buying_intent)
          classification_ad_suggestions := c.bind (·.ad_suggestions)
          classification_timestamp := c.bind (·.timestamp) }

/-- Association-list write with dict/`doc_ref.set` upsert semantics:
replace the value at an existing key, else append. -/
def alistSet {α : Type} (l : List (String × α)) (k : String) (v : α) : List (String × α) :=
  match l with
  | [] => [(k, v)]
  | (k0, v0) :: t => if k0 = k then (k, v) :: t else (k0, v0) :: alistSet t k v

/-- Association-list lookup (`dict.get`). -/
def alistFind {α : Type} (l : List (String × α)) (k : String) : Option α :=
  (l.find? (fun p => p.1 = k)).map (·.2)

/-- The run statistics dictionary (lines 40-48). -/
structure MergeStats where
  total_attribution_records : Nat := 0
  total_classification_records : Nat := 0
  successful_merges : Nat := 0
  attribution_only : Nat := 0
  classification_only : Nat := 0
  errors : Nat := 0
  skipped : Nat := 0
deriving DecidableEq, Repr

/-- The external document store as seen by one merge run: the two source
collection streams (which may raise), and which merged-record writes
fail. -/
structure FirestoreEnv where
  attribution_stream : Except Unit (List AttrRec)
  classification_stream : Except Unit (List ClassRec)
  save_fails : String → Bool

/-- `_get_all_attribution_data` (lines 105-121): a streaming error is
caught and yields the empty list. -/
def get_all_attribution_data (env : FirestoreEnv) : List AttrRec :=
  match env.attribution_stream with
  | .ok l => l
  | .error _ => []

/-- `_get_all_classification_data` (lines 123-139): same error handling as
the attribution loader. -/
def get_all_classification_data (env : FirestoreEnv) : List ClassRec :=
  match env.classification_stream with
  | .ok l => l
  | .error _ => []

/-- The dict comprehension `{record['url']: record for record in data}`
(lines 72-73): later records overwrite earlier ones at the same URL, and a
record without the `'url'` key raises `KeyError`. -/
def build_url_lookup {ρ : Type} (recs : List ρ) (urlOf : ρ → Option String) :
    Except Unit (List (String × ρ)) :=
  recs.foldlM
    (fun acc r =>
      match urlOf r with
      | some u => .ok (alistSet acc u r)
      | none => .error ())
    []

/-- `set(attribution_lookup) | set(classification_lookup)` (line 76).
Python set iteration order is unspecified; the union is modelled as the
first-occurrence deduplication of the concatenated key lists (all the
statistics and store contents proved below are insensitive to the
enumeration order). -/
def union_urls (ak ck : List String) : List String :=
  (ak ++ ck).dedup

/-- `_save_merged_record` (lines 239-252): compute the document id from
the URL and `set` (upsert) the document; a write error is caught and
reported as `False`. -/
def save_merged_record (url : String) (merged : MergedRec)
    (store : List (String × MergedRec)) : List (String × MergedRec) :=
  alistSet store (FirebaseService.create_doc_id url) merged

/-- `_process_url_merge` (lines 141-172) acting on the statistics and the
merged collection. -/
def process_url_merge (save_fails : String → Bool)
    (attribution_lookup : List (String × AttrRec))
    (classification_lookup : List (String × ClassRec))
    (st : MergeStats × List (String × MergedRec)) (url : String) :
    MergeStats × List (String × MergedRec) :=
  let stats := st.1
  let store := st.2
  let attribution_record := alistFind attribution_lookup url
  let classification_record := alistFind classification_lookup url
  match create_merged_record url attribution_record classification_record with
  | some merged =>
      if save_fails url then
        ({ stats with errors := stats.errors + 1 }, store)
      else
        let store2 := save_merged_record url merged store
        if attribution_record.isSome && classification_record.isSome then
          ({ stats with successful_merges := stats.successful_merges + 1 }, store2)
        else if attribution_record.isSome then
          ({ stats with attribution_only := stats.attribution_only + 1 }, store2)
        else
          ({ stats with classification_only := stats.classification_only + 1 }, store2)
  | none => ({ stats with skipped := stats.skipped + 1 }, store)

/-- Result of `merge_attribution_data` together with the final contents of
the `merged_content_signals` collection (the human-readable `message` and
the wall-clock `timestamp` fields are not modelled). -/
structure MergeResult where
  success : Bool
  statistics : MergeStats
  merged_store : List (String × MergedRec)
deriving Repr

/-- Embedding of `merge_attribution_data` (lines 50-103): load both
collections (loader errors were already swallowed), set the totals, build
the two URL-keyed lookups (a `KeyError` there is the only exception the
outer `try` can see: it yields `success: False` with `errors`
incremented), then process every URL in the union. -/
def merge_attribution_data (env : FirestoreEnv) : MergeResult :=
  let attribution_data := get_all_attribution_data env
  let classification_data := get_all_classification_data env
  let stats0 : MergeStats :=
    { total_attribution_records := attribution_data.length
      total_classification_records := classification_data.length }
  match build_url_lookup attribution_data AttrRec.url,
      build_url_lookup classification_data ClassRec.url with
  | .ok attribution_lookup, .ok classification_lookup =>
      let all_urls :=
        union_urls (attribution_lookup.map (·.1)) (classification_lookup.map (·.1))
      let out :=
        all_urls.foldl (process_url_merge env.save_fails attribution_lookup classification_lookup)
          (stats0, [])
      { success := true, statistics := out.1, merged_store := out.2 }
  | _, _ =>
      { success := false
        statistics := { stats0 with errors := stats0.errors + 1 }
        merged_store := [] }

end ReconciliationEngine

namespace URLNormalizer

/-! Embedding of `normalize_url` (`backend/mcp_server.py`, lines 335-382)
together with the parts of CPython 3.11 `urllib.parse.urlparse` that it
relies on (scheme/netloc/path splitting, query/fragment/params removal,
the WHATWG control-character stripping, and the IPv6-bracket `ValueError`).
Modelling boundaries, none of which any claim below exercises:
ASCII case folding only; the NFKC check on non-ASCII netlocs is omitted;
a netloc containing a bracket character is treated as a parse failure
(CPython validates the bracketed text as an IP literal and accepts valid
IPv6 addresses).  All theorems about parses restrict themselves to
bracket-free netlocs. -/

/-- `scheme_chars` from `urllib/parse.py`. -/
def scheme_chars : List Char :=
  "abcdefghijklmnopqrstuvwxyzABCDEFGHIJKLMNOPQRSTUVWXYZ0123456789+-.".toList

/-- `uses_params` from `urllib/parse.py`. -/
def uses_params : List String :=
  ["", "ftp", "hdl", "prospero", "http", "imap", "https", "shttp", "rtsp",
   "rtspu", "sip", "sips", "mms", "sftp", "tel"]

/-- A C0 control character or space (the WHATWG left-strip set). -/
def isC0OrSpace (c : Char) : Bool := c.toNat ≤ 32

/-- The `_UNSAFE_URL_BYTES_TO_REMOVE` characters (tab, CR, LF). -/
def isUnsafeByte (c : Char) : Bool := c = '\t' || c = '\r' || c = '\n'

/-- Components produced by `urlparse` (params already split off the
path). -/
structure ParseResult where
  scheme : String
  netloc : String
  path : String
deriving DecidableEq, Repr

/-- First index of `c` in `l` at or beyond `start` (`str.find(c, start)`). -/
def findFrom (l : List Char) (c : Char) (start : Nat) : Option Nat :=
  ((l.drop start).findIdx? (· = c)).map (· + start)

/-- Index of the last `'/'` (`str.rfind('/')`); caller guarantees
presence. -/
def rfindSlash (l : List Char) : Nat :=
  l.length - 1 - ((l.reverse.findIdx? (· = '/')).getD 0)

/-- `_splitparams`: remove `;params` from the last path segment. -/
def splitparams (url : List Char) : List Char :=
  if url.contains '/' then
    match findFrom url ';' (rfindSlash url) with
    | some i => url.take i
    | none => url
  else
    match url.findIdx? (· = ';') with
    | some i => url.take i
    | none => url

/-- The scheme-prefix test of `urlsplit`: `i > 0`, the first character is
ASCII alphabetic, and every character before the colon is a scheme
character. -/
def schemeOk (url : List Char) (i : Nat) : Bool :=
  decide (0 < i) && (url.headD ' ').isAlpha && ((url.take i).all (· ∈ scheme_chars))

/-- `urlparse` (via `urlsplit`) restricted to the components
`normalize_url` reads.  `.error ()` models a raised `ValueError`. -/
def pyUrlparse (input : String) : Except Unit ParseResult :=
  let url0 := (input.toList.dropWhile isC0OrSpace).filter (fun c => !isUnsafeByte c)
  let schemeSplit : String × List Char :=
    match url0.findIdx? (· = ':') with
    | some i =>
        if schemeOk url0 i then (⟨(url0.take i).map Char.toLower⟩, url0.drop (i + 1))
        else ("", url0)
    | none => ("", url0)
  let scheme := schemeSplit.1
  let url1 := schemeSplit.2
  let netlocSplit : Except Unit (List Char × List Char) :=
    match url1 with
    | '/' :: '/' :: rest =>
        let netloc := rest.takeWhile (fun c => !(c = '/' || c = '?' || c = '#'))
        if netloc.contains '[' || netloc.contains ']' then .error ()
        else .ok (netloc, rest.drop netloc.length)
    | _ => .ok ([], url1)
  match netlocSplit with
  | .error _ => .error ()
  | .ok (netloc, url2) =>
      let url3 :=
        match url2.findIdx? (· = '#') with
        | some i => url2.take i
        | none => url2
      let url4 :=
        match url3.findIdx? (· = '?') with
        | some i => url3.take i
        | none => url3
      let path :=
        if decide (scheme ∈ uses_params) && url4.contains ';' then splitparams url4
        else url4
      .ok { scheme := scheme, netloc := ⟨netloc⟩, path := ⟨path⟩ }

/-- The scheme-less host heuristic guard of `normalize_url` (line 361):
`not netloc and path and ('.' in path) and (' ' not in path)`. -/
def hostHeuristic (netloc path : String) : Bool :=
  netloc == "" && !(path == "") && path.toList.contains '.' && !path.toList.contains ' '

/-- `path.split('/', 1)` recombined as host and rest-path (lines 363-366). -/
def splitHostRest (path : String) : String × String :=
  match path.toList.findIdx? (· = '/') with
  | some i => (⟨path.toList.take i⟩, ⟨'/' :: path.toList.drop (i + 1)⟩)
  | none => (path, "")

/-- Trailing-slash removal (lines 376-377). -/
def stripTrailingSlash (path : String) : String :=
  if path.toList.getLast? == some '/' && !(path == "/") then ⟨path.toList.dropLast⟩ else path

/-- Embedding of `normalize_url` (lines 335-382).  `none` models the
Python `None` argument. -/
def normalize_url (raw : Option String) : String :=
  match raw with
  | none => ""
  | some raw =>
      let s := pyStrip raw
      match pyUrlparse s with
      | .error _ => pyLower (pyStrip raw)
      | .ok parsed =>
          let scheme0 := if parsed.scheme == "" then "" else pyLower parsed.scheme
          let hnp : String × String × String :=
            if hostHeuristic parsed.netloc parsed.path then
              let hr := splitHostRest parsed.path
              (if scheme0 == "" then "https" else scheme0, hr.1, hr.2)
            else
              (if scheme0 == "" then "https" else scheme0, parsed.netloc, parsed.path)
          let host_lower := pyLower hnp.2.1
          let path := stripTrailingSlash hnp.2.2
          hnp.1 ++ "://" ++ host_lower ++ path

end URLNormalizer

namespace CodeValidator

/-! Embedding of `_normalize_and_validate_iab` (`backend/mcp_server.py`,
lines 235-333).  The taxonomy `code_map` (the `codes` table of the loaded
taxonomy) maps code strings to entries whose `label` may be missing
(`none` here models both a falsy entry and a missing `'label'` key).
Field values coming from the completion-service JSON are arbitrary Python
values (`Option PyVal`: `Option.none` is an absent key).  `.error ()`
models a raised exception (`AttributeError` from calling `.strip()` on a
non-string). -/

/-- Python truthiness for the modelled values. -/
def pyTruthy (v : PyVal) : Bool :=
  match v with
  | .none => false
  | .str s => !(s == "")
  | .int n => !(n == 0)
  | .float q => !(q == 0)

/-- The regex match `^(IAB\d+(?:-\d+)?)` on a string: the leading IAB
code, or `""` when there is no match. -/
def matchLeadingIab (s : String) : String :=
  match s.toList with
  | 'I' :: 'A' :: 'B' :: rest =>
      let ds := rest.takeWhile Char.isDigit
      if ds.isEmpty then ""
      else
        match rest.drop ds.length with
        | '-' :: rest3 =>
            let ds2 := rest3.takeWhile Char.isDigit
            if ds2.isEmpty then ⟨'I' :: 'A' :: 'B' :: ds⟩
            else ⟨'I' :: 'A' :: 'B' :: ds ++ '-' :: ds2⟩
        | _ => ⟨'I' :: 'A' :: 'B' :: ds⟩
  | _ => ""

/-- `extract_iab_code` (lines 249-257): falsy input gives `''`; a truthy
non-string raises (`text.strip()`); a truthy string is stripped and
matched against the leading-code pattern. -/
def extract_iab_code (text : PyVal) : Except Unit String :=
  if pyTruthy text then
    match text with
    | .str s => .ok (matchLeadingIab (pyStrip s))
    | _ => .error ()
  else .ok ""

/-- `re.sub(r'^IAB\d+(?:-\d+)?\s*\(([^)]+)\)', r'\1', s)`: replace a
leading `IABn(-m)? ( label )` pattern by the parenthesised text.  The
pattern is anchored, so at most one replacement happens. -/
def subLeadingIabParen (s : String) : String :=
  match s.toList with
  | 'I' :: 'A' :: 'B' :: rest =>
      let ds := rest.takeWhile Char.isDigit
      if ds.isEmpty then s
      else
        let r1 := rest.drop ds.length
        let r2 :=
          match r1 with
          | '-' :: t =>
              let ds2 := t.takeWhile Char.isDigit
              if ds2.isEmpty then r1 else t.drop ds2.length
          | _ => r1
        let r3 := r2.dropWhile isPySpace
        match r3 with
        | '(' :: t2 =>
            let content := t2.takeWhile (· ≠ ')')
            if content.isEmpty then s
            else
              match t2.drop content.length with
              | ')' :: tail => ⟨content ++ tail⟩
              | _ => s
        | _ => s
  | _ => s

/-- One taxonomy table: codes in insertion order with optional labels. -/
def CodeMap : Type := List (String × Option String)

/-- Membership test `code in code_map`. -/
def inCodeMap (cm : CodeMap) (c : String) : Bool :=
  cm.any (fun p => p.1 = c)

/-- Append `code` to the bucket of `label_key`, creating the bucket at the
end on first use (Python dict insertion order). -/
def bucketAppend (l : List (String × List String)) (k : String) (c : String) :
    List (String × List String) :=
  match l with
  | [] => [(k, [c])]
  | (k0, cs) :: t => if k0 = k then (k0, cs ++ [c]) :: t else (k0, cs) :: bucketAppend t k c

/-- The `label_to_codes` table built at the top of
`_normalize_and_validate_iab` (lines 241-247). -/
def build_label_to_codes (cm : CodeMap) : List (String × List String) :=
  cm.foldl
    (fun acc p =>
      match p.2 with
      | some label => bucketAppend acc (pyLower (pyStrip label)) p.1
      | none => acc)
    []

/-- The sort key `lambda x: (len(x.split('-')), x)`: compare by number of
dash-separated segments, then by string order. -/
def candidateLE (x y : String) : Bool :=
  let nx := x.toList.count '-' + 1
  let ny := y.toList.count '-' + 1
  decide (nx < ny) || (decide (nx = ny) && pyStrLE x y)

/-- The third resolution step of `validate_iab_code` (lines 272-284): the
label-table fallback, stripping a leading `IABn (label)` wrapper from the
label text and choosing the bucket candidate with the fewest segments
(`candidates[0]` raises on an empty bucket, which the table construction
never produces; `label_text.strip()` raises on a truthy non-string). -/
def label_fallback (label_to_codes : List (String × List String))
    (label_text : PyVal) : Except Unit String :=
  if pyTruthy label_text then
    match label_text with
    | .str s =>
        let clean_label := subLeadingIabParen (pyStrip s)
        let label_key := pyStrip (pyLower clean_label)
        match (label_to_codes.find? (fun p => p.1 = label_key)).map (·.2) with
        | some candidates =>
            match pySort candidateLE candidates with
            | [] => .error ()
            | c :: _ => .ok c
        | none => .ok ""
    | _ => .error ()
  else .ok ""

/-- `validate_iab_code` (lines 259-285): direct code extraction, then code
extraction from the label text, then the label-table fallback. -/
def validate_iab_code (cm : CodeMap) (label_to_codes : List (String × List String))
    (code label_text : PyVal) : Except Unit String :=
  match (if pyTruthy code then extract_iab_code code else .ok "") with
  | .error e => .error e
  | .ok clean_code =>
      if !(clean_code == "") && inCodeMap cm clean_code then .ok clean_code
      else
        match (if pyTruthy label_text then extract_iab_code label_text else .ok "") with
        | .error e => .error e
        | .ok extracted =>
            if pyTruthy label_text && !(extracted == "") && inCodeMap cm extracted then
              .ok extracted
            else label_fallback label_to_codes label_text

/-- The classification-result fields `_normalize_and_validate_iab`
reads. -/
structure ClassifyResult where
  iab_code : Option PyVal := none
  iab_category : Option PyVal := none
  iab_subcode : Option PyVal := none
  iab_subcategory : Option PyVal := none
  iab_secondary_code : Option PyVal := none
  iab_secondary_category : Option PyVal := none
  iab_secondary_subcode : Option PyVal := none
  iab_secondary_subcategory : Option PyVal := none
deriving DecidableEq, Repr

/-- The four validated code fields written back into the result
(`primary_code or None` etc., lines 320-324), plus the
`valid_codes_found` entry of the `_validation` metadata. -/
structure ValidateOutput where
  iab_code : PyVal
  iab_subcode : PyVal
  iab_secondary_code : PyVal
  iab_secondary_subcode : PyVal
  valid_codes_found : Nat
deriving DecidableEq, Repr

/-- `code or None`. -/
def orNone (c : String) : PyVal :=
  if c = "" then .none else .str c

/-- Embedding of `_normalize_and_validate_iab` (lines 235-333): validate
the four code/label pairs, null a subcategory that does not extend its
parent code with a dash, and report how many codes resolved.  (The
`invalid_inputs` log list only feeds a `print` and is not modelled; it
calls `extract_iab_code` on `str(value)`, which cannot raise.) -/
def normalize_and_validate_iab (cm : CodeMap) (result : ClassifyResult) :
    Except Unit ValidateOutput :=
  let label_to_codes := build_label_to_codes cm
  match validate_iab_code cm label_to_codes
      (pyGet result.iab_code) (pyGet result.iab_category) with
  | .error e => .error e
  | .ok primary_code =>
      match validate_iab_code cm label_to_codes
          (pyGet result.iab_subcode) (pyGet result.iab_subcategory) with
      | .error e => .error e
      | .ok sub_code0 =>
          match validate_iab_code cm label_to_codes
              (pyGet result.iab_secondary_code) (pyGet result.iab_secondary_category) with
          | .error e => .error e
          | .ok sec_code =>
              match validate_iab_code cm label_to_codes
                  (pyGet result.iab_secondary_subcode)
                  (pyGet result.iab_secondary_subcategory) with
              | .error e => .error e
              | .ok sec_sub_code0 =>
                  let sub_code :=
                    if !(sub_code0 == "") && !(primary_code == "") &&
                        !(pyStartsWith sub_code0 (primary_code ++ "-")) then ""
                    else sub_code0
                  let sec_sub_code :=
                    if !(sec_sub_code0 == "") && !(sec_code == "") &&
                        !(pyStartsWith sec_sub_code0 (sec_code ++ "-")) then ""
                    else sec_sub_code0
                  let valid_codes :=
                    [primary_code, sub_code, sec_code, sec_sub_code].filter (· ≠ "")
                  .ok { iab_code := orNone primary_code
                        iab_subcode := orNone sub_code
                        iab_secondary_code := orNone sec_code
                        iab_secondary_subcode := orNone sec_sub_code
                        valid_codes_found := valid_codes.length }

end CodeValidator

namespace TaxonomyIndex

/-! Embedding of the code-assignment half of `parse_iab_tsv` and
`_assign_children` (`backend/iab_taxonomy.py`, lines 115-179), starting
from the `nodes` list the TSV-reading loop produces (the claims are about
the grouping, sorting and code assignment, lines 115 onward; the
field-extraction loop, lines 94-113, only shapes these nodes).  Python
dictionaries are association lists with overwrite-on-insert; the
unbounded recursion of `_assign_children` and the parent-climbing
`while True` loop of `top_rank_of` are given explicit fuel that suffices
whenever the Python code terminates (any forest, and more generally any
node list whose parent chains do not cycle, has depth at most the number
of nodes). -/

/-- One element of the `nodes` list built by the TSV loop
(lines 107-113). -/
structure RawNode where
  uid : String
  parent_uid : Option String
  label : String
  path : List String
  level : Nat
deriving DecidableEq, Repr

/-- One element of the final `codes` list (lines 149-155). -/
structure TaxEntry where
  code : Option String
  label : String
  path : List String
  level : Nat
  parent : Option String
deriving DecidableEq, Repr

/-- `n.get("parent_uid") or "__ROOT__"` (line 119): a missing or empty
parent id groups the node under the root key. -/
def parentKey (n : RawNode) : String :=
  match n.parent_uid with
  | none => "__ROOT__"
  | some p => if p = "" then "__ROOT__" else p

/-- Append a node to its parent group, creating the group at the end on
first use (lines 118-122, preserving dict insertion order). -/
def groupAppend (l : List (String × List RawNode)) (k : String) (n : RawNode) :
    List (String × List RawNode) :=
  match l with
  | [] => [(k, [n])]
  | (k0, ns) :: t => if k0 = k then (k0, ns ++ [n]) :: t else (k0, ns) :: groupAppend t k n

/-- Comparator for the sibling sort `lst.sort(key=lambda a: a.get("label",
"").lower())` (lines 127-130). -/
def labelLE (a b : RawNode) : Bool :=
  pyStrLE (pyLower a.label) (pyLower b.label)

/-- The `by_parent` multimap with every sibling group sorted by
lower-cased label (lines 116-129). -/
def by_parent_of (nodes : List RawNode) : List (String × List RawNode) :=
  (nodes.foldl (fun acc n => groupAppend acc (parentKey n) n) []).map
    (fun p => (p.1, pySort labelLE p.2))

/-- The sorted roots list (lines 117-130): nodes whose `parent_uid` is
`None`, in input order, then sorted by lower-cased label. -/
def roots_of (nodes : List RawNode) : List RawNode :=
  pySort labelLE (nodes.filter (fun n => n.parent_uid = none))

/-- The dict comprehension
`{n["uid"]: n.get("parent_uid") for n in nodes}` (line 166). -/
def uid_to_parent_of (nodes : List RawNode) : List (String × Option String) :=
  nodes.foldl (fun acc n => ReconciliationEngine.alistSet acc n.uid n.parent_uid) []

/-- `dict.get` on an association list. -/
def alget {α : Type} (l : List (String × α)) (k : String) : Option α :=
  (l.find? (fun p => p.1 = k)).map (·.2)

/-- The two mutable maps threaded through `_assign_children`. -/
structure AssignState where
  code_by_uid : List (String × String)
  top_rank_by_uid : List (String × Nat)
deriving DecidableEq, Repr

/-- `top_rank_of` (lines 167-173): climb `uid_to_parent` until a node
without a (truthy) parent is reached, then read its recorded top rank
(default 0).  The fuel bounds the `while True` loop. -/
def top_rank_of (u2p : List (String × Option String)) (trb : List (String × Nat)) :
    Nat → String → Nat
  | 0, _ => 0
  | fuel + 1, p =>
      match alget u2p p with
      | some (some parent) =>
          if parent = "" then (alget trb p).getD 0
          else top_rank_of u2p trb fuel parent
      | _ => (alget trb p).getD 0

/-- `_assign_children` (lines 163-179): each child of `parent_uid`, in
sorted order, receives code `IAB{top_rank}-{idx+1}` where `top_rank` is
found by climbing to the root; then its own children are assigned.  The
`parent_code` argument is received and passed on but never used to build a
code — exactly as in the source.  The fuel bounds the recursion depth. -/
def assign_children (by_parent : List (String × List RawNode)) (nodes : List RawNode) :
    Nat → String → String → AssignState → AssignState
  | 0, _, _, st => st
  | fuel + 1, parent_uid, parent_code, st =>
      let kids := (alget by_parent parent_uid).getD []
      let u2p := uid_to_parent_of nodes
      (kids.enum.foldl
        (fun st p =>
          let idx := p.1
          let child := p.2
          let top_rank := top_rank_of u2p st.top_rank_by_uid (nodes.length + 1) parent_uid
          let code := "IAB" ++ toString top_rank ++ "-" ++ toString (idx + 1)
          let st2 : AssignState :=
            { code_by_uid := ReconciliationEngine.alistSet st.code_by_uid child.uid code
              top_rank_by_uid := ReconciliationEngine.alistSet st.top_rank_by_uid child.uid top_rank }
          assign_children by_parent nodes fuel child.uid code st2)
        st)

/-- The root loop of `parse_iab_tsv` (lines 133-140): the i-th sorted
root gets code `IAB{i+1}` and rank `i+1`, then its subtree is assigned. -/
def assign_codes (nodes : List RawNode) : AssignState :=
  let by_parent := by_parent_of nodes
  let roots := roots_of nodes
  roots.enum.foldl
    (fun st p =>
      let i := p.1
      let root := p.2
      let top := "IAB" ++ toString (i + 1)
      let st2 : AssignState :=
        { code_by_uid := ReconciliationEngine.alistSet st.code_by_uid root.uid top
          top_rank_by_uid := ReconciliationEngine.alistSet st.top_rank_by_uid root.uid (i + 1) }
      assign_children by_parent nodes (nodes.length + 1) root.uid top st2)
    ⟨[], []⟩

/-- The tail of `parse_iab_tsv` (lines 142-160): flatten every node into a
`TaxEntry` carrying its assigned code and its parent's code, and reject
taxonomies with fewer than 200 entries. -/
def parse_iab_tsv_nodes (nodes : List RawNode) : Except String (List TaxEntry) :=
  let cbu := (assign_codes nodes).code_by_uid
  let codes := nodes.map
    (fun n =>
      { code := alget cbu n.uid
        label := n.label
        path := n.path
        level := n.level
        parent :=
          match n.parent_uid with
          | some pu => if pu = "" then none else alget cbu pu
          | none => none : TaxEntry })
  if codes.length < 200 then .error "taxonomy too small" else .ok codes

end TaxonomyIndex

end Contentive

namespace Contentive

/-- C5 spec-side definition, following the claim's words: a code is an
immediate child of `parent` when it equals `parent` plus a dash plus one
non-empty run of digits (one numeric segment). -/
def spec_immediate_child (parent c : String) : Bool :=
  pyStartsWith c (parent ++ "-") &&
    (let suffix := c.toList.drop (parent.length + 1)
     !suffix.isEmpty && suffix.all Char.isDigit)

/-- A concrete 200-node taxonomy exercising `parse_iab_tsv`: the chain
`A` (root) - `B` (level 2) - `C` (level 3) plus 197 filler roots, enough
to pass the minimum-size check. -/
def cNodes : List TaxonomyIndex.RawNode :=
  ⟨"1", none, "A", ["A"], 1⟩ ::
  ⟨"2", some "1", "B", ["A", "B"], 2⟩ ::
  ⟨"3", some "2", "C", ["A", "B", "C"], 3⟩ ::
  (List.range 197).map
    (fun i => ⟨toString (i + 4), none, "d" ++ toString (i + 100),
      ["d" ++ toString (i + 100)], 1⟩)

/-- Uid of the `i`-th filler root of `dNodes`: a run of `i + 1` letters
`f`, distinct from `"1"` and `"2"` and pairwise distinct by length. -/
def fuid (i : Nat) : String :=
  ⟨List.replicate (i + 1) 'f'⟩

/-- A two-level variant of `cNodes`: the root `A` with single child `B`
plus 198 filler roots. -/
def dNodes : List TaxonomyIndex.RawNode :=
  ⟨"1", none, "A", ["A"], 1⟩ ::
  ⟨"2", some "1", "B", ["A", "B"], 2⟩ ::
  (List.range 198).map
    (fun i => ⟨fuid i, none, "d" ++ toString (i + 100),
      ["d" ++ toString (i + 100)], 1⟩)

end Contentive

namespace Contentive

open SegmentFilter

/-- C9: a record passes the segment include/exclude filter exactly when
(its primary or secondary classification code is in the include set, or
that set is empty) and neither code is in the exclude set; in particular a
record with primary code "A" and secondary code "B" is included under the
rule include_codes = ["B"]. -/
theorem C9_matches_iab_spec :
    (∀ (p s : Option String) (inc exc : List String),
      matches_iab p s inc exc = true ↔
        ((inc = [] ∨ p.getD "" ∈ inc ∨ s.getD "" ∈ inc) ∧
          p.getD "" ∉ exc ∧ s.getD "" ∉ exc)) ∧
    matches_iab (some "A") (some "B") ["B"] [] = true := by
  constructor
  · intro p s inc exc
    simp only [matches_iab]
    rcases inc with _ | ⟨i, inc⟩ <;> rcases exc with _ | ⟨e, exc⟩ <;>
      simp_all [List.isEmpty, List.contains]
  · rfl

/-! Helper lemmas about the association-list store. -/

theorem alistSet_same {α : Type} (l : List (String × α)) (k : String) (v1 v2 : α) :
    ReconciliationEngine.alistSet (ReconciliationEngine.alistSet l k v1) k v2 =
      ReconciliationEngine.alistSet l k v2 := by
  induction l with
  | nil => simp [ReconciliationEngine.alistSet]
  | cons h t ih =>
      by_cases hk : h.1 = k <;>
        simp [ReconciliationEngine.alistSet, hk, ih]

theorem length_wordHexChars (w : Nat) : (MD5.wordHexChars w).length = 8 := by
  simp [MD5.wordHexChars, MD5.byteHexChars]

theorem length_hexdigest (msg : List Nat) : (MD5.hexdigest msg).length = 32 := by
  simp [MD5.hexdigest, String.length, length_wordHexChars]

theorem isHexDigit_hexDigitChar (n : Nat) (h : n < 16) :
    (MD5.hexDigitChar n).isDigit = true ∨
      ('a' ≤ MD5.hexDigitChar n ∧ MD5.hexDigitChar n ≤ 'f') := by
  interval_cases n <;> decide

theorem mem_wordHexChars {c : Char} {w : Nat} (h : c ∈ MD5.wordHexChars w) :
    ∃ n, n < 16 ∧ c = MD5.hexDigitChar n := by
  simp only [MD5.wordHexChars, MD5.byteHexChars, List.mem_append, List.mem_cons,
    List.not_mem_nil, or_false] at h
  repeat' rcases h with h | h
  all_goals exact ⟨_, Nat.mod_lt _ (by norm_num), rfl⟩

theorem hexChars_hexdigest (msg : List Nat) :
    ∀ c ∈ (MD5.hexdigest msg).toList,
      c.isDigit = true ∨ ('a' ≤ c ∧ c ≤ 'f') := by
  intro c hc
  have hm : c ∈ MD5.wordHexChars (MD5.md5_digest msg).a ∨
      c ∈ MD5.wordHexChars (MD5.md5_digest msg).b ∨
      c ∈ MD5.wordHexChars (MD5.md5_digest msg).c ∨
      c ∈ MD5.wordHexChars (MD5.md5_digest msg).d := by
    simpa [MD5.hexdigest, List.mem_append, or_assoc] using hc
  have : ∃ n, n < 16 ∧ c = MD5.hexDigitChar n := by
    rcases hm with h | h | h | h <;> exact mem_wordHexChars h
  obtain ⟨n, hn, rfl⟩ := this
  exact isHexDigit_hexDigitChar n hn

/-- C10: merged-record persistence is a deterministic upsert keyed by URL:
the document id is the pure function `"url_"` plus the 32-hex-digit MD5 of
the URL, so writing a merged record for the same URL twice targets one
document and the second write overwrites the first. -/
theorem C10_doc_id_upsert (u : String) (r1 r2 : ReconciliationEngine.MergedRec)
    (store : List (String × ReconciliationEngine.MergedRec)) :
    FirebaseService.create_doc_id u =
      "url_" ++ MD5.hexdigest (FirebaseService.utf8_bytes u) ∧
    (MD5.hexdigest (FirebaseService.utf8_bytes u)).length = 32 ∧
    (∀ c ∈ (MD5.hexdigest (FirebaseService.utf8_bytes u)).toList,
      c.isDigit = true ∨ ('a' ≤ c ∧ c ≤ 'f')) ∧
    ReconciliationEngine.save_merged_record u r2
        (ReconciliationEngine.save_merged_record u r1 store) =
      ReconciliationEngine.save_merged_record u r2 store := by
  refine ⟨rfl, length_hexdigest _, hexChars_hexdigest _, ?_⟩
  simp [ReconciliationEngine.save_merged_record, alistSet_same]

theorem pyFloat_ne_pynone {v : PyVal} {q : ℚ} (h : pyFloat v = some q) :
    (v == PyVal.none) = false := by
  cases v <;> simp_all [pyFloat]

/-- C3: click-through-rate derivation in `_create_merged_record`: when the
uploaded rate is not a usable number and both clicks and impressions
convert to numbers with impressions positive, the merged record stores
`clicks / impressions * 100` as the attribution rate; when impressions is
zero, absent, or unusable, no rate is derived and the merged record just
carries over the uploaded value — in particular the rate stays absent when
it was absent. -/
theorem C3_ctr_derivation (u : String) (ar : ReconciliationEngine.AttrRec)
    (co : Option ReconciliationEngine.ClassRec) :
    (∀ cq iq : ℚ,
      ReconciliationEngine.ctr_is_valid (pyGet ar.ctr) = false →
      pyFloat (pyGet ar.clicks) = some cq →
      pyFloat (pyGet ar.impressions) = some iq →
      0 < iq →
      ∃ m, ReconciliationEngine.create_merged_record u (some ar) co = some m ∧
        m.attribution_ctr = some (.float (cq / iq * 100))) ∧
    (ReconciliationEngine.ctr_is_valid (pyGet ar.ctr) = false →
      (pyFloat (pyGet ar.impressions) = none ∨ pyFloat (pyGet ar.impressions) = some 0) →
      ∃ m, ReconciliationEngine.create_merged_record u (some ar) co = some m ∧
        m.attribution_ctr = ar.ctr) := by
  constructor
  · intro cq iq hvalid hc hi hpos
    have hder : ReconciliationEngine.derived_ctr ar = some (cq / iq * 100) := by
      simp [ReconciliationEngine.derived_ctr, hvalid, pyFloat_ne_pynone hc,
        pyFloat_ne_pynone hi, hc, hi, hpos]
    cases co with
    | none => exact ⟨_, rfl, by simp [ReconciliationEngine.create_merged_record, hder]⟩
    | some c => exact ⟨_, rfl, by simp [ReconciliationEngine.create_merged_record, hder]⟩
  · intro hvalid himp
    have hder : ReconciliationEngine.derived_ctr ar = none := by
      simp only [ReconciliationEngine.derived_ctr, hvalid]
      rcases himp with h | h <;>
        · cases hcl : pyFloat (pyGet ar.clicks) <;>
            cases hnone : pyGet ar.clicks == PyVal.none <;>
            cases hinone : pyGet ar.impressions == PyVal.none <;>
            simp_all
    cases co with
    | none => exact ⟨_, rfl, by simp [ReconciliationEngine.create_merged_record, hder]⟩
    | some c => exact ⟨_, rfl, by simp [ReconciliationEngine.create_merged_record, hder]⟩

/-! Helper lemmas about one reconciliation run: how each statistics
counter evolves over the URL fold. -/

open ReconciliationEngine in
theorem mem_keys_isSome {α : Type} (l : List (String × α)) (u : String)
    (h : u ∈ l.map (·.1)) : (alistFind l u).isSome = true := by
  induction l with
  | nil => simp at h
  | cons p t ih =>
      rcases List.mem_cons.1 h with h0 | h0
      · simp [alistFind, List.find?, h0.symm]
      · by_cases hp : p.1 = u
        · simp [alistFind, List.find?, hp]
        · have := ih h0
          simp only [alistFind, List.find?] at this ⊢
          simp [hp, this]

open ReconciliationEngine in
theorem fold_stats_counters (save : String → Bool)
    (al : List (String × AttrRec)) (cl : List (String × ClassRec)) :
    ∀ (urls : List String) (st : MergeStats × List (String × MergedRec)),
      (urls.foldl (process_url_merge save al cl) st).1.skipped =
          st.1.skipped +
            urls.countP (fun u => (alistFind al u).isNone && (alistFind cl u).isNone) ∧
      (urls.foldl (process_url_merge save al cl) st).1.errors =
          st.1.errors +
            urls.countP (fun u =>
              ((alistFind al u).isSome || (alistFind cl u).isSome) && save u) ∧
      (urls.foldl (process_url_merge save al cl) st).1.successful_merges =
          st.1.successful_merges +
            urls.countP (fun u =>
              ((alistFind al u).isSome && (alistFind cl u).isSome) && !save u) ∧
      (urls.foldl (process_url_merge save al cl) st).1.attribution_only =
          st.1.attribution_only +
            urls.countP (fun u =>
              ((alistFind al u).isSome && !(alistFind cl u).isSome) && !save u) ∧
      (urls.foldl (process_url_merge save al cl) st).1.classification_only =
          st.1.classification_only +
            urls.countP (fun u =>
              (!(alistFind al u).isSome && (alistFind cl u).isSome) && !save u) ∧
      (urls.foldl (process_url_merge save al cl) st).1.total_attribution_records =
          st.1.total_attribution_records ∧
      (urls.foldl (process_url_merge save al cl) st).1.total_classification_records =
          st.1.total_classification_records := by
  intro urls
  induction urls with
  | nil => intro st; simp
  | cons u urls ih =>
      intro st
      simp only [List.foldl_cons, List.countP_cons]
      have step := ih (process_url_merge save al cl st u)
      rcases ha : alistFind al u with _ | a <;> rcases hc : alistFind cl u with _ | c <;>
        rcases hs : save u with _ | _ <;>
        · simp only [process_url_merge, ha, hc, hs,
            ReconciliationEngine.create_merged_record] at step ⊢
          simp_all
          omega

/-- C7: the run-level error contract of `merge_attribution_data`.  The
run always carries its statistics (the two totals are the loaded
collection sizes on both the success and the failure path); the run
reports failure exactly when building one of the URL lookups raises (a
loaded record without the `url` key); a streaming error while loading a
source collection is swallowed inside the loader and the run still
reports success; and when the lookups build, the run succeeds with
per-record persistence failures only counted in the `errors` counter. -/
theorem C7_run_error_contract (env : ReconciliationEngine.FirestoreEnv) :
    ((ReconciliationEngine.merge_attribution_data env).statistics.total_attribution_records =
        (ReconciliationEngine.get_all_attribution_data env).length ∧
      (ReconciliationEngine.merge_attribution_data env).statistics.total_classification_records =
        (ReconciliationEngine.get_all_classification_data env).length) ∧
    ((ReconciliationEngine.merge_attribution_data env).success = false ↔
      ReconciliationEngine.build_url_lookup (ReconciliationEngine.get_all_attribution_data env)
          ReconciliationEngine.AttrRec.url = .error () ∨
      ReconciliationEngine.build_url_lookup (ReconciliationEngine.get_all_classification_data env)
          ReconciliationEngine.ClassRec.url = .error ()) ∧
    (env.attribution_stream = .error () → env.classification_stream = .error () →
      ReconciliationEngine.merge_attribution_data env =
        { success := true, statistics := {}, merged_store := [] }) ∧
    (∀ al cl,
      ReconciliationEngine.build_url_lookup (ReconciliationEngine.get_all_attribution_data env)
          ReconciliationEngine.AttrRec.url = .ok al →
      ReconciliationEngine.build_url_lookup (ReconciliationEngine.get_all_classification_data env)
          ReconciliationEngine.ClassRec.url = .ok cl →
      (ReconciliationEngine.merge_attribution_data env).success = true ∧
      (ReconciliationEngine.merge_attribution_data env).statistics.errors =
        (ReconciliationEngine.union_urls (al.map (·.1)) (cl.map (·.1))).countP
          env.save_fails) := by
  refine ⟨?_, ?_, ?_, ?_⟩
  · rcases hA : ReconciliationEngine.build_url_lookup
        (ReconciliationEngine.get_all_attribution_data env)
        ReconciliationEngine.AttrRec.url with e | al <;>
      rcases hC : ReconciliationEngine.build_url_lookup
          (ReconciliationEngine.get_all_classification_data env)
          ReconciliationEngine.ClassRec.url with e2 | cl <;>
      · simp only [ReconciliationEngine.merge_attribution_data, hA, hC]
        first
        | simp
        | exact ⟨(fold_stats_counters _ _ _ _ _).2.2.2.2.2.1,
            (fold_stats_counters _ _ _ _ _).2.2.2.2.2.2⟩
  · rcases hA : ReconciliationEngine.build_url_lookup
        (ReconciliationEngine.get_all_attribution_data env)
        ReconciliationEngine.AttrRec.url with ⟨⟩ | al <;>
      rcases hC : ReconciliationEngine.build_url_lookup
          (ReconciliationEngine.get_all_classification_data env)
          ReconciliationEngine.ClassRec.url with ⟨⟩ | cl <;>
      simp [ReconciliationEngine.merge_attribution_data, hA, hC]
  · intro h1 h2
    simp only [ReconciliationEngine.merge_attribution_data,
      ReconciliationEngine.get_all_attribution_data,
      ReconciliationEngine.get_all_classification_data, h1, h2]
    rfl
  · intro al cl hA hC
    constructor
    · simp [ReconciliationEngine.merge_attribution_data, hA, hC]
    · simp only [ReconciliationEngine.merge_attribution_data, hA, hC]
      rw [(fold_stats_counters _ _ _ _ _).2.1]
      have hc2 :
          (ReconciliationEngine.union_urls (al.map (·.1)) (cl.map (·.1))).countP
              (fun u => ((ReconciliationEngine.alistFind al u).isSome ||
                (ReconciliationEngine.alistFind cl u).isSome) && env.save_fails u) =
            (ReconciliationEngine.union_urls (al.map (·.1)) (cl.map (·.1))).countP
              env.save_fails := by
        apply List.countP_congr
        intro u hu
        have hmem : u ∈ al.map (·.1) ∨ u ∈ cl.map (·.1) := by
          simpa [ReconciliationEngine.union_urls, List.mem_dedup, List.mem_append] using hu
        rcases hmem with h | h <;> simp [mem_keys_isSome _ _ h]
      rw [hc2]
      simp

/-- C7 counterexample: the inability to load the attribution collection
(its stream raises) does not make the run report failure — the loader
swallows the error, the run sees an empty collection and reports
success. -/
theorem C7_counterexample :
    (ReconciliationEngine.merge_attribution_data
        ⟨.error (), .ok [], fun _ => false⟩).success = true ∧
    (ReconciliationEngine.merge_attribution_data
        ⟨.error (), .ok [], fun _ => false⟩).statistics.total_attribution_records = 0 ∧
    (ReconciliationEngine.merge_attribution_data
        ⟨.error (), .ok [], fun _ => false⟩).statistics.errors = 0 :=
  ⟨rfl, rfl, rfl⟩

/-- C7 witness: a run over one attribution record whose persistence fails
still succeeds, with the failure counted once in `errors`. -/
theorem C7_run_error_contract_witness :
    (ReconciliationEngine.merge_attribution_data
        ⟨.ok [{ url := some "https://a.com" }], .ok [], fun _ => true⟩).success = true ∧
    (ReconciliationEngine.merge_attribution_data
        ⟨.ok [{ url := some "https://a.com" }], .ok [], fun _ => true⟩).statistics.errors = 1 := by
  have h := (C7_run_error_contract ⟨.ok [{ url := some "https://a.com" }], .ok [], fun _ => true⟩).2.2.2
    [("https://a.com", { url := some "https://a.com" })] [] rfl rfl
  exact ⟨h.1, by rw [h.2]; rfl⟩

/-! Helper lemmas about the stable sort and the label-to-codes table,
used for the code-validation claims. -/

theorem mem_merge_lists {α : Type} (le : α → α → Bool) :
    ∀ (fuel : Nat) (l r : List α) (a : α),
      a ∈ merge_lists le fuel l r ↔ a ∈ l ∨ a ∈ r := by
  intro fuel
  induction fuel with
  | zero => intro l r a; simp [merge_lists]
  | succ f ih =>
      intro l r a
      rcases l with _ | ⟨x, l⟩ <;> rcases r with _ | ⟨y, r⟩ <;> simp only [merge_lists]
      · simp
      · simp
      · simp
      · split <;> simp [ih] <;> tauto

theorem mem_msort {α : Type} (le : α → α → Bool) :
    ∀ (fuel : Nat) (l : List α) (a : α), a ∈ msort le fuel l ↔ a ∈ l := by
  intro fuel
  induction fuel with
  | zero => intro l a; simp [msort]
  | succ f ih =>
      intro l a
      rcases l with _ | ⟨x, l⟩
      · simp [msort]
      · rcases l with _ | ⟨y, l⟩
        · simp [msort]
        · simp only [msort]
          rw [mem_merge_lists, ih, ih, ← List.mem_append, List.take_append_drop]

theorem mem_pySort {α : Type} (le : α → α → Bool) (l : List α) (a : α) :
    a ∈ pySort le l ↔ a ∈ l := by
  simp [pySort, mem_msort]

theorem bucketAppend_inv {P : String → Prop}
    (l : List (String × List String)) (k : String) (c : String)
    (hacc : ∀ k0 cs, (k0, cs) ∈ l → cs ≠ [] ∧ ∀ x ∈ cs, P x) (hc : P c) :
    ∀ k0 cs, (k0, cs) ∈ CodeValidator.bucketAppend l k c →
      cs ≠ [] ∧ ∀ x ∈ cs, P x := by
  induction l with
  | nil =>
      intro k0 cs h
      simp only [CodeValidator.bucketAppend, List.mem_singleton] at h
      cases h
      exact ⟨by simp, by simpa using hc⟩
  | cons p t ih =>
      intro k0 cs h
      rcases p with ⟨pk, pcs⟩
      simp only [CodeValidator.bucketAppend] at h
      split at h
      · rcases List.mem_cons.1 h with h0 | h0
        · injection h0 with h1 h2
          subst h1
          subst h2
          have hp := hacc _ _ (List.mem_cons_self _ _)
          refine ⟨by simp, ?_⟩
          intro x hx
          rcases List.mem_append.1 hx with hx | hx
          · exact hp.2 x hx
          · rw [List.mem_singleton.1 hx]
            exact hc
        · exact hacc _ _ (List.mem_cons_of_mem _ h0)
      · rcases List.mem_cons.1 h with h0 | h0
        · injection h0 with h1 h2
          subst h1
          subst h2
          exact hacc _ _ (List.mem_cons_self _ _)
        · exact ih (fun k1 cs1 hm => hacc _ _ (List.mem_cons_of_mem _ hm)) _ _ h0

theorem build_ltc_inv (cm : CodeValidator.CodeMap) :
    ∀ k cs, (k, cs) ∈ CodeValidator.build_label_to_codes cm →
      cs ≠ [] ∧ ∀ c ∈ cs, CodeValidator.inCodeMap cm c = true := by
  have main : ∀ (l : List (String × Option String)) (acc : List (String × List String)),
      (∀ k cs, (k, cs) ∈ acc → cs ≠ [] ∧ ∀ c ∈ cs, CodeValidator.inCodeMap cm c = true) →
      (∀ p ∈ l, CodeValidator.inCodeMap cm p.1 = true) →
      ∀ k cs,
        (k, cs) ∈ l.foldl
          (fun acc p =>
            match p.2 with
            | some label => CodeValidator.bucketAppend acc (pyLower (pyStrip label)) p.1
            | none => acc) acc →
        cs ≠ [] ∧ ∀ c ∈ cs, CodeValidator.inCodeMap cm c = true := by
    intro l
    induction l with
    | nil => intro acc hacc _ k cs h; exact hacc _ _ h
    | cons p t ih =>
        intro acc hacc hl k cs h
        simp only [List.foldl_cons] at h
        rcases hp : p.2 with _ | label
        · rw [hp] at h
          exact ih acc hacc (fun q hq => hl q (List.mem_cons_of_mem _ hq)) _ _ h
        · rw [hp] at h
          exact ih _
            (bucketAppend_inv acc _ _ hacc (hl p (List.mem_cons_self _ _)))
            (fun q hq => hl q (List.mem_cons_of_mem _ hq)) _ _ h
  intro k cs h
  refine main cm [] (by simp) ?_ k cs h
  intro p hp
  simp only [CodeValidator.inCodeMap, List.any_eq_true]
  exact ⟨p, hp, by simp⟩

theorem extract_iab_code_ok (v : PyVal)
    (h : (∃ s, v = .str s) ∨ CodeValidator.pyTruthy v = false) :
    ∃ r, CodeValidator.extract_iab_code v = .ok r := by
  rcases h with ⟨s, rfl⟩ | h
  · simp only [CodeValidator.extract_iab_code]
    split <;> exact ⟨_, rfl⟩
  · simp [CodeValidator.extract_iab_code, h]

theorem label_fallback_ok (cm : CodeValidator.CodeMap) (lt : PyVal)
    (h : (∃ s, lt = .str s) ∨ CodeValidator.pyTruthy lt = false) :
    ∃ r, CodeValidator.label_fallback (CodeValidator.build_label_to_codes cm) lt = .ok r ∧
      (r = "" ∨ CodeValidator.inCodeMap cm r = true) := by
  cases htv : CodeValidator.pyTruthy lt with
  | false => exact ⟨"", by simp [CodeValidator.label_fallback, htv], Or.inl rfl⟩
  | true =>
      rcases h with ⟨s, rfl⟩ | h
      · simp only [CodeValidator.label_fallback, htv, if_true]
        rcases hf : (CodeValidator.build_label_to_codes cm).find?
            (fun p => p.1 = pyStrip (pyLower (CodeValidator.subLeadingIabParen (pyStrip s))))
          with _ | ⟨bk, bcs⟩
        · exact ⟨"", by simp [hf], Or.inl rfl⟩
        · have hmem := List.mem_of_find?_eq_some hf
          have hinv := build_ltc_inv cm bk bcs hmem
          rcases hs : pySort CodeValidator.candidateLE bcs with _ | ⟨c, rest⟩
          · exfalso
            rcases List.exists_mem_of_ne_nil bcs hinv.1 with ⟨x, hx⟩
            have := (mem_pySort CodeValidator.candidateLE bcs x).2 hx
            rw [hs] at this
            simp at this
          · refine ⟨c, by simp [hf, hs], Or.inr ?_⟩
            have : c ∈ pySort CodeValidator.candidateLE bcs := by rw [hs]; simp
            exact hinv.2 c ((mem_pySort _ _ _).1 this)
      · rw [h] at htv
        cases htv

theorem validate_iab_code_ok (cm : CodeValidator.CodeMap) (code lt : PyVal)
    (hcode : (∃ s, code = .str s) ∨ CodeValidator.pyTruthy code = false)
    (hlt : (∃ s, lt = .str s) ∨ CodeValidator.pyTruthy lt = false) :
    ∃ r, CodeValidator.validate_iab_code cm (CodeValidator.build_label_to_codes cm) code lt =
        .ok r ∧ (r = "" ∨ CodeValidator.inCodeMap cm r = true) := by
  have hex1 : ∃ r1, (if CodeValidator.pyTruthy code then CodeValidator.extract_iab_code code
      else .ok "") = .ok r1 := by
    split
    · exact extract_iab_code_ok code hcode
    · exact ⟨"", rfl⟩
  obtain ⟨r1, hr1⟩ := hex1
  have hex2 : ∃ r2, (if CodeValidator.pyTruthy lt then CodeValidator.extract_iab_code lt
      else .ok "") = .ok r2 := by
    split
    · exact extract_iab_code_ok lt hlt
    · exact ⟨"", rfl⟩
  obtain ⟨r2, hr2⟩ := hex2
  simp only [CodeValidator.validate_iab_code, hr1, hr2]
  by_cases h1 : (!(r1 == "") && CodeValidator.inCodeMap cm r1) = true
  · rw [if_pos h1]
    exact ⟨r1, rfl, Or.inr (by simpa using (Bool.and_elim_right h1))⟩
  · rw [if_neg h1]
    by_cases h2 : (CodeValidator.pyTruthy lt && !(r2 == "") && CodeValidator.inCodeMap cm r2) = true
    · rw [if_pos h2]
      exact ⟨r2, rfl, Or.inr (by simpa using (Bool.and_elim_right h2))⟩
    · rw [if_neg h2]
      exact label_fallback_ok cm lt hlt

theorem orNone_field_ok (cm : CodeValidator.CodeMap) (x : String)
    (h : x = "" ∨ CodeValidator.inCodeMap cm x = true) :
    CodeValidator.orNone x = PyVal.none ∨
      ∃ c, CodeValidator.orNone x = PyVal.str c ∧ CodeValidator.inCodeMap cm c = true := by
  by_cases hx : x = ""
  · left; simp [CodeValidator.orNone, hx]
  · right
    exact ⟨x, by simp [CodeValidator.orNone, hx], h.resolve_left hx⟩

/-- C4 amended: on every classification result whose eight code/label
fields are strings, `None`, or absent, `_normalize_and_validate_iab`
raises no exception and each of the four output code fields is either
`None` or a code present in the taxonomy table.  (On a result carrying a
truthy non-string field the function does raise, see the
counterexample.) -/
theorem C4_validation_no_throw (cm : CodeValidator.CodeMap)
    (r : CodeValidator.ClassifyResult)
    (h : ∀ v ∈ [r.iab_code, r.iab_category, r.iab_subcode, r.iab_subcategory,
        r.iab_secondary_code, r.iab_secondary_category,
        r.iab_secondary_subcode, r.iab_secondary_subcategory],
      (∃ s, pyGet v = .str s) ∨ CodeValidator.pyTruthy (pyGet v) = false) :
    ∃ o, CodeValidator.normalize_and_validate_iab cm r = .ok o ∧
      ∀ v ∈ [o.iab_code, o.iab_subcode, o.iab_secondary_code, o.iab_secondary_subcode],
        v = PyVal.none ∨ ∃ c, v = PyVal.str c ∧ CodeValidator.inCodeMap cm c = true := by
  obtain ⟨p0, hp0, hp0v⟩ := validate_iab_code_ok cm (pyGet r.iab_code)
    (pyGet r.iab_category) (h r.iab_code (by simp)) (h r.iab_category (by simp))
  obtain ⟨s0, hs0, hs0v⟩ := validate_iab_code_ok cm (pyGet r.iab_subcode)
    (pyGet r.iab_subcategory) (h r.iab_subcode (by simp)) (h r.iab_subcategory (by simp))
  obtain ⟨c0, hc0, hc0v⟩ := validate_iab_code_ok cm (pyGet r.iab_secondary_code)
    (pyGet r.iab_secondary_category) (h r.iab_secondary_code (by simp))
    (h r.iab_secondary_category (by simp))
  obtain ⟨d0, hd0, hd0v⟩ := validate_iab_code_ok cm (pyGet r.iab_secondary_subcode)
    (pyGet r.iab_secondary_subcategory) (h r.iab_secondary_subcode (by simp))
    (h r.iab_secondary_subcategory (by simp))
  simp only [CodeValidator.normalize_and_validate_iab, hp0, hs0, hc0, hd0]
  refine ⟨_, rfl, ?_⟩
  intro v hv
  simp only [List.mem_cons, List.not_mem_nil, or_false] at hv
  rcases hv with rfl | rfl | rfl | rfl
  · exact orNone_field_ok cm p0 hp0v
  · split
    · exact orNone_field_ok cm "" (Or.inl rfl)
    · exact orNone_field_ok cm s0 hs0v
  · exact orNone_field_ok cm c0 hc0v
  · split
    · exact orNone_field_ok cm "" (Or.inl rfl)
    · exact orNone_field_ok cm d0 hd0v

/-- C4 witness: with a one-entry taxonomy and a result whose only present
field is the label `"Automotive"`, validation resolves the primary code
to `IAB1` without raising and every output field is a taxonomy code or
`None`. -/
theorem C4_validation_no_throw_witness :
    ∃ o, CodeValidator.normalize_and_validate_iab [("IAB1", some "Automotive")]
        { iab_category := some (.str "Automotive") } = .ok o ∧
      ∀ v ∈ [o.iab_code, o.iab_subcode, o.iab_secondary_code, o.iab_secondary_subcode],
        v = PyVal.none ∨
          ∃ c, v = PyVal.str c ∧
            CodeValidator.inCodeMap [("IAB1", some "Automotive")] c = true :=
  C4_validation_no_throw [("IAB1", some "Automotive")]
    { iab_category := some (.str "Automotive") }
    (by
      intro v hv
      simp only [List.mem_cons, List.not_mem_nil, or_false] at hv
      rcases hv with rfl | rfl | rfl | rfl | rfl | rfl | rfl | rfl <;>
        first
          | exact Or.inr rfl
          | exact Or.inl ⟨"Automotive", rfl⟩)

/-- C4 counterexample: `_normalize_and_validate_iab` is not
exception-free on every input: a truthy non-string field value (here the
integer 1 as `iab_code`) reaches `text.strip()` inside
`extract_iab_code` and raises `AttributeError`. -/
theorem C4_counterexample :
    CodeValidator.normalize_and_validate_iab [("IAB1", some "Automotive")]
      { iab_code := some (.int 1) } = .error () := rfl

/-- C5 amended: the cross-field consistency check is a string-prefix
test, not an immediate-child test: a resolved subcategory survives
exactly when it starts with the resolved primary code followed by a dash
(so a deeper descendant such as `IAB1-1-1` under `IAB1` is kept); when
the test fails the subcategory is nulled while the primary is kept
unchanged; the same applies to the secondary pair. -/
theorem C5_prefix_consistency (cm : CodeValidator.CodeMap)
    (r : CodeValidator.ClassifyResult) (o : CodeValidator.ValidateOutput)
    (h : CodeValidator.normalize_and_validate_iab cm r = .ok o) :
    (∀ c p, o.iab_subcode = PyVal.str c → o.iab_code = PyVal.str p →
      pyStartsWith c (p ++ "-") = true) ∧
    (∀ c p, o.iab_secondary_subcode = PyVal.str c → o.iab_secondary_code = PyVal.str p →
      pyStartsWith c (p ++ "-") = true) ∧
    (o.iab_code = PyVal.none ∨
      ∃ p, o.iab_code = PyVal.str p ∧
        CodeValidator.validate_iab_code cm (CodeValidator.build_label_to_codes cm)
          (pyGet r.iab_code) (pyGet r.iab_category) = .ok p) := by
  rcases h1 : CodeValidator.validate_iab_code cm (CodeValidator.build_label_to_codes cm)
      (pyGet r.iab_code) (pyGet r.iab_category) with ⟨⟩ | p0 <;>
    rcases h2 : CodeValidator.validate_iab_code cm (CodeValidator.build_label_to_codes cm)
        (pyGet r.iab_subcode) (pyGet r.iab_subcategory) with ⟨⟩ | s0 <;>
    rcases h3 : CodeValidator.validate_iab_code cm (CodeValidator.build_label_to_codes cm)
        (pyGet r.iab_secondary_code) (pyGet r.iab_secondary_category) with ⟨⟩ | c0 <;>
    rcases h4 : CodeValidator.validate_iab_code cm (CodeValidator.build_label_to_codes cm)
        (pyGet r.iab_secondary_subcode) (pyGet r.iab_secondary_subcategory) with ⟨⟩ | d0 <;>
    simp only [CodeValidator.normalize_and_validate_iab, h1, h2, h3, h4] at h <;>
    cases h
  refine ⟨?_, ?_, ?_⟩
  · intro c p hc hp
    by_cases hP : p0 = ""
    · simp [CodeValidator.orNone, hP] at hp
    · simp only [CodeValidator.orNone, if_neg hP, PyVal.str.injEq] at hp
      subst hp
      by_cases hg : (!(s0 == "") && !(p0 == "") && !(pyStartsWith s0 (p0 ++ "-"))) = true
      · rw [if_pos hg] at hc
        simp [CodeValidator.orNone] at hc
      · rw [if_neg hg] at hc
        by_cases hS : s0 = ""
        · simp [CodeValidator.orNone, hS] at hc
        · simp only [CodeValidator.orNone, if_neg hS, PyVal.str.injEq] at hc
          subst hc
          rcases Bool.eq_false_or_eq_true (pyStartsWith s0 (p0 ++ "-")) with ht | hf
          · exact ht
          · exact absurd (by simp [hS, hP, hf]) hg
  · intro c p hc hp
    by_cases hP : c0 = ""
    · simp [CodeValidator.orNone, hP] at hp
    · simp only [CodeValidator.orNone, if_neg hP, PyVal.str.injEq] at hp
      subst hp
      by_cases hg : (!(d0 == "") && !(c0 == "") && !(pyStartsWith d0 (c0 ++ "-"))) = true
      · rw [if_pos hg] at hc
        simp [CodeValidator.orNone] at hc
      · rw [if_neg hg] at hc
        by_cases hS : d0 = ""
        · simp [CodeValidator.orNone, hS] at hc
        · simp only [CodeValidator.orNone, if_neg hS, PyVal.str.injEq] at hc
          subst hc
          rcases Bool.eq_false_or_eq_true (pyStartsWith d0 (c0 ++ "-")) with ht | hf
          · exact ht
          · exact absurd (by simp [hS, hP, hf]) hg
  · by_cases hP : p0 = ""
    · left
      simp [CodeValidator.orNone, hP]
    · right
      exact ⟨p0, by simp [CodeValidator.orNone, hP], rfl⟩

/-- C5 witness: in a taxonomy holding `IAB17` and its direct child
`IAB17-24`, a result resolving to that pair keeps the subcategory, and
the kept subcategory indeed extends the primary with a dash. -/
theorem C5_prefix_consistency_witness :
    pyStartsWith "IAB17-24" ("IAB17" ++ "-") = true ∧
    CodeValidator.validate_iab_code
      [("IAB17", some "Sports"), ("IAB17-24", some "Golf")]
      (CodeValidator.build_label_to_codes
        [("IAB17", some "Sports"), ("IAB17-24", some "Golf")])
      (pyGet (some (PyVal.str "IAB17"))) (pyGet none) = .ok "IAB17" := by
  constructor
  · have h := (C5_prefix_consistency [("IAB17", some "Sports"), ("IAB17-24", some "Golf")]
      { iab_code := some (.str "IAB17"), iab_subcode := some (.str "IAB17-24") } _ rfl).1
    exact h "IAB17-24" "IAB17" rfl rfl
  · have h := (C5_prefix_consistency [("IAB17", some "Sports"), ("IAB17-24", some "Golf")]
      { iab_code := some (.str "IAB17"), iab_subcode := some (.str "IAB17-24") } _ rfl).2.2
    rcases h with h | ⟨p, hp, hv⟩
    · cases h
    · have : p = "IAB17" := by
        have := hp
        simp [CodeValidator.orNone] at this
        split at this
        · cases this
        · exact (PyVal.str.injEq _ _ ▸ this).symm
      rw [this] at hv
      exact hv

/-- C5 counterexample: with a taxonomy containing `IAB1` and the
deeper code `IAB1-1-1` (label `deep`), a result resolving the primary to
`IAB1` and the subcategory label to `deep` keeps subcategory
`IAB1-1-1` — the prefix check accepts it although it is not an immediate
child `IAB1-{n}` of the primary, which the claim requires to be nulled. -/
theorem C5_counterexample :
    ∃ o, CodeValidator.normalize_and_validate_iab
        [("IAB1", some "top"), ("IAB1-1-1", some "deep")]
        { iab_code := some (.str "IAB1"), iab_subcategory := some (.str "deep") } = .ok o ∧
      o.iab_code = PyVal.str "IAB1" ∧ o.iab_subcode = PyVal.str "IAB1-1-1" ∧
      spec_immediate_child "IAB1" "IAB1-1-1" = false :=
  ⟨_, rfl, rfl, rfl, rfl⟩

/-- C8 amended: the `skipped` counter of a reconciliation run is always
0 — every URL the loop visits comes from the union of the two lookups'
keys, so it always has at least one record and `_create_merged_record`
never returns `None`; moreover a record whose `url` field is the empty
string is processed normally: it produces one MergedSignal (counted as
attribution-only), not a skip.  (A record with NO `url` key instead makes
the whole run fail, see the C7 theorem.) -/
theorem C8_empty_url_not_skipped (env : ReconciliationEngine.FirestoreEnv) :
    (ReconciliationEngine.merge_attribution_data env).statistics.skipped = 0 ∧
    (ReconciliationEngine.merge_attribution_data
        ⟨.ok [{ url := some "" }], .ok [], fun _ => false⟩).statistics.attribution_only = 1 ∧
    ((ReconciliationEngine.merge_attribution_data
        ⟨.ok [{ url := some "" }], .ok [], fun _ => false⟩).merged_store.map
      (fun p => (p.2.url, p.2.has_attribution_data))) = [("", true)] := by
  refine ⟨?_, rfl, rfl⟩
  rcases hA : ReconciliationEngine.build_url_lookup
      (ReconciliationEngine.get_all_attribution_data env)
      ReconciliationEngine.AttrRec.url with ⟨⟩ | al <;>
    rcases hC : ReconciliationEngine.build_url_lookup
        (ReconciliationEngine.get_all_classification_data env)
        ReconciliationEngine.ClassRec.url with ⟨⟩ | cl <;>
    simp only [ReconciliationEngine.merge_attribution_data, hA, hC]
  rw [(fold_stats_counters _ _ _ _ _).1]
  have hz :
      (ReconciliationEngine.union_urls (al.map (·.1)) (cl.map (·.1))).countP
          (fun u => (ReconciliationEngine.alistFind al u).isNone &&
            (ReconciliationEngine.alistFind cl u).isNone) = 0 := by
    apply List.countP_eq_zero.2
    intro u hu
    have hmem : u ∈ al.map (·.1) ∨ u ∈ cl.map (·.1) := by
      simpa [ReconciliationEngine.union_urls, List.mem_dedup, List.mem_append] using hu
    rcases hmem with h | h <;>
      simp [Option.isNone_iff_eq_none, Option.isSome_iff_exists,
        Option.isSome_iff_ne_none.1 (mem_keys_isSome _ _ h)]
  rw [hz]

/-- C8 counterexample: a record whose URL is the empty string is not
skipped before the lookup: the run produces a MergedSignal for it, the
`skipped` counter stays 0, and the record is counted as
attribution-only. -/
theorem C8_counterexample :
    (ReconciliationEngine.merge_attribution_data
        ⟨.ok [{ url := some "" }], .ok [], fun _ => false⟩).statistics.skipped = 0 ∧
    (ReconciliationEngine.merge_attribution_data
        ⟨.ok [{ url := some "" }], .ok [], fun _ => false⟩).merged_store.length = 1 :=
  ⟨rfl, rfl⟩

/-- C2 amended: the reconciliation join is keyed by the raw `url` field
value (not the normalized URL): given exactly one attribution record and
exactly one classification record carrying the same `url` string, and a
store that accepts the write, the run succeeds with exactly one
MergedSignal carrying both flags, and `successful_merges = 1`; the loop
runs once per distinct `url` value in the union of the two collections. -/
theorem C2_join_by_raw_url (u : String) (a : ReconciliationEngine.AttrRec)
    (c : ReconciliationEngine.ClassRec) (save : String → Bool)
    (ha : a.url = some u) (hc : c.url = some u) (hs : save u = false) :
    (ReconciliationEngine.merge_attribution_data ⟨.ok [a], .ok [c], save⟩).success = true ∧
    (ReconciliationEngine.merge_attribution_data
        ⟨.ok [a], .ok [c], save⟩).statistics.successful_merges = 1 ∧
    (ReconciliationEngine.merge_attribution_data
        ⟨.ok [a], .ok [c], save⟩).statistics.attribution_only = 0 ∧
    (ReconciliationEngine.merge_attribution_data
        ⟨.ok [a], .ok [c], save⟩).statistics.classification_only = 0 ∧
    (ReconciliationEngine.merge_attribution_data
        ⟨.ok [a], .ok [c], save⟩).statistics.errors = 0 ∧
    ∃ m, (ReconciliationEngine.merge_attribution_data
        ⟨.ok [a], .ok [c], save⟩).merged_store = [(FirebaseService.create_doc_id u, m)] ∧
      m.has_attribution_data = true ∧ m.has_classification_data = true := by
  have hbuildA : ReconciliationEngine.build_url_lookup [a] ReconciliationEngine.AttrRec.url =
      .ok [(u, a)] := by
    simp [ReconciliationEngine.build_url_lookup, ha, ReconciliationEngine.alistSet]
  have hbuildC : ReconciliationEngine.build_url_lookup [c] ReconciliationEngine.ClassRec.url =
      .ok [(u, c)] := by
    simp [ReconciliationEngine.build_url_lookup, hc, ReconciliationEngine.alistSet]
  have hrun : ReconciliationEngine.merge_attribution_data ⟨.ok [a], .ok [c], save⟩ =
      { success := true
        statistics :=
          { total_attribution_records := 1, total_classification_records := 1
            successful_merges := 1 }
        merged_store :=
          [(FirebaseService.create_doc_id u,
            (ReconciliationEngine.create_merged_record u (some a) (some c)).getD
              { url := u, has_attribution_data := false, has_classification_data := false })] } := by
    simp only [ReconciliationEngine.merge_attribution_data,
      ReconciliationEngine.get_all_attribution_data,
      ReconciliationEngine.get_all_classification_data, hbuildA, hbuildC]
    simp [ReconciliationEngine.union_urls, ReconciliationEngine.process_url_merge,
      ReconciliationEngine.alistFind, ReconciliationEngine.create_merged_record, hs,
      ReconciliationEngine.save_merged_record, ReconciliationEngine.alistSet,
      List.dedup_cons_of_mem]
  rw [hrun]
  refine ⟨rfl, rfl, rfl, rfl, rfl, _, rfl, ?_, ?_⟩ <;>
    simp [ReconciliationEngine.create_merged_record]

/-- C2 witness: one attribution record and one classification record for
the literal URL string `"https://site.com/x"` merge into exactly one
MergedSignal with both flags set and `successful_merges = 1`. -/
theorem C2_join_by_raw_url_witness :
    (ReconciliationEngine.merge_attribution_data
        ⟨.ok [{ url := some "https://site.com/x" }],
         .ok [{ url := some "https://site.com/x" }], fun _ => false⟩).success = true ∧
    (ReconciliationEngine.merge_attribution_data
        ⟨.ok [{ url := some "https://site.com/x" }],
         .ok [{ url := some "https://site.com/x" }],
         fun _ => false⟩).statistics.successful_merges = 1 := by
  have h := C2_join_by_raw_url "https://site.com/x" { url := some "https://site.com/x" }
    { url := some "https://site.com/x" } (fun _ => false) rfl rfl rfl
  exact ⟨h.1, h.2.1⟩

/-- C2 counterexample: the join key is the raw `url` field, not the
normalized URL.  Two records whose URLs normalize identically but differ
as raw strings do not merge: the run emits two MergedSignals (one
attribution-only, one classification-only) and `successful_merges = 0`,
where the claim demands one merged record and `successful_merges = 1`. -/
theorem C2_counterexample :
    URLNormalizer.normalize_url (some "site.com/x") =
      URLNormalizer.normalize_url (some "https://site.com/x") ∧
    (ReconciliationEngine.merge_attribution_data
        ⟨.ok [{ url := some "site.com/x" }],
         .ok [{ url := some "https://site.com/x" }],
         fun _ => false⟩).statistics.successful_merges = 0 ∧
    (ReconciliationEngine.merge_attribution_data
        ⟨.ok [{ url := some "site.com/x" }],
         .ok [{ url := some "https://site.com/x" }],
         fun _ => false⟩).statistics.attribution_only = 1 ∧
    (ReconciliationEngine.merge_attribution_data
        ⟨.ok [{ url := some "site.com/x" }],
         .ok [{ url := some "https://site.com/x" }],
         fun _ => false⟩).statistics.classification_only = 1 ∧
    (ReconciliationEngine.merge_attribution_data
        ⟨.ok [{ url := some "site.com/x" }],
         .ok [{ url := some "https://site.com/x" }],
         fun _ => false⟩).merged_store.length = 2 :=
  ⟨rfl, rfl, rfl, rfl, rfl⟩

/-- C3 witness: clicks 50 and impressions 1000 with the rate absent derive
a rate of 5; impressions 0 leaves the absent rate absent. -/
theorem C3_ctr_derivation_witness :
    (∃ m, ReconciliationEngine.create_merged_record "https://site.com/a"
        (some { url := some "https://site.com/a", clicks := some (.float 50),
                impressions := some (.float 1000) }) none = some m ∧
      m.attribution_ctr = some (.float 5)) ∧
    (∃ m, ReconciliationEngine.create_merged_record "https://site.com/b"
        (some { url := some "https://site.com/b", clicks := some (.float 50),
                impressions := some (.float 0) }) none = some m ∧
      m.attribution_ctr = none) := by
  constructor
  · obtain ⟨m, hm, hc⟩ :=
      (C3_ctr_derivation "https://site.com/a"
        { url := some "https://site.com/a", clicks := some (.float 50),
          impressions := some (.float 1000) } none).1 50 1000 rfl rfl rfl (by norm_num)
    exact ⟨m, hm, by rw [hc]; norm_num⟩
  · obtain ⟨m, hm, hc⟩ :=
      (C3_ctr_derivation "https://site.com/b"
        { url := some "https://site.com/b", clicks := some (.float 50),
          impressions := some (.float 0) } none).2 rfl (Or.inr rfl)
    exact ⟨m, hm, hc⟩



/-- `Char.ofNat` evaluated at a valid codepoint. -/
theorem char_toNat_ofNat_valid {n : Nat} (h : n.isValidChar) : (Char.ofNat n).toNat = n := by
  rw [Char.ofNat, dif_pos h]; rfl

/-- `Char.toLower` fixes characters outside `A`-`Z`. -/
theorem toLower_eq_self_of_not_upper {c : Char} (h : ¬(65 ≤ c.toNat ∧ c.toNat ≤ 90)) :
    c.toLower = c := by
  simp only [Char.toLower]
  rw [if_neg h]

/-- `Char.toLower` shifts `A`-`Z` by 32. -/
theorem toNat_toLower_of_upper {c : Char} (h65 : 65 ≤ c.toNat) (h90 : c.toNat ≤ 90) :
    c.toLower.toNat = c.toNat + 32 := by
  simp only [Char.toLower]
  rw [if_pos ⟨h65, h90⟩]
  exact char_toNat_ofNat_valid (Or.inl (by omega))

/-- ASCII lower-casing is idempotent. -/
theorem toLower_idem (c : Char) : c.toLower.toLower = c.toLower := by
  by_cases h : 65 ≤ c.toNat ∧ c.toNat ≤ 90
  · have h2 := toNat_toLower_of_upper h.1 h.2
    exact toLower_eq_self_of_not_upper (by omega)
  · rw [toLower_eq_self_of_not_upper h, toLower_eq_self_of_not_upper h]

/-- A character whose code point is not in `a`-`z` is only reached by
`toLower` from itself. -/
theorem toLower_fix_of_out {c d : Char} (h : c.toLower = d)
    (hd : d.toNat < 97 ∨ 122 < d.toNat) : c = d := by
  by_cases hc : 65 ≤ c.toNat ∧ c.toNat ≤ 90
  · have h2 := toNat_toLower_of_upper hc.1 hc.2
    rw [h] at h2
    exfalso; omega
  · rw [toLower_eq_self_of_not_upper hc] at h; exact h

/-- Index of the first hit when everything before it misses. -/
theorem findIdx_app_of (p : Char → Bool) (A B : List Char) (c : Char)
    (hA : ∀ a ∈ A, p a = false) (hc : p c = true) :
    List.findIdx? p (A ++ c :: B) = some A.length := by
  induction A with
  | nil => simp [List.findIdx?_cons, hc]
  | cons a A ih =>
      have ha : p a = false := hA a (List.mem_cons_self a A)
      rw [List.cons_append, List.findIdx?_cons, if_neg (by simp [ha]), List.findIdx?_succ,
        ih (fun x hx => hA x (List.mem_cons_of_mem a hx))]
      simp

/-- `findIdx?` misses when every element misses. -/
theorem findIdx_none_of (p : Char → Bool) (l : List Char)
    (h : ∀ a ∈ l, p a = false) : List.findIdx? p l = none := by
  induction l with
  | nil => rfl
  | cons a t ih =>
      rw [List.findIdx?_cons, if_neg (by simp [h a (List.mem_cons_self a t)]),
        List.findIdx?_succ, ih (fun x hx => h x (List.mem_cons_of_mem a hx))]
      rfl

/-- A found index is within bounds. -/
theorem findIdx_lt_length {p : Char → Bool} {l : List Char} {i : Nat}
    (h : List.findIdx? p l = some i) : i < l.length := by
  induction l generalizing i with
  | nil => simp [List.findIdx?_nil] at h
  | cons a t ih =>
      rw [List.findIdx?_cons] at h
      by_cases hp : p a = true
      · rw [if_pos hp] at h
        injection h with h
        subst h
        simp
      · rw [if_neg hp, List.findIdx?_succ] at h
        rcases Option.map_eq_some'.mp h with ⟨j, hj, rfl⟩
        have hb := ih hj
        simp only [List.length_cons]
        omega

/-- Everything strictly before the first hit misses. -/
theorem take_findIdx_false {p : Char → Bool} {l : List Char} {i : Nat}
    (h : List.findIdx? p l = some i) : ∀ a ∈ l.take i, p a = false := by
  induction l generalizing i with
  | nil => intro a ha; simp at ha
  | cons x t ih =>
      rw [List.findIdx?_cons] at h
      by_cases hp : p x = true
      · rw [if_pos hp] at h
        injection h with h
        subst h
        intro a ha; simp at ha
      · rw [if_neg hp, List.findIdx?_succ] at h
        rcases Option.map_eq_some'.mp h with ⟨j, hj, rfl⟩
        intro a ha
        rw [List.take_succ_cons] at ha
        rcases List.mem_cons.mp ha with rfl | ha
        · exact Bool.eq_false_iff.mpr hp
        · exact ih hj a ha

/-- `takeWhile` passes over a block that satisfies the predicate. -/
theorem takeWhile_append_of_all (p : Char → Bool) (A B : List Char)
    (hA : ∀ a ∈ A, p a = true) :
    List.takeWhile p (A ++ B) = A ++ List.takeWhile p B := by
  induction A with
  | nil => simp
  | cons a A ih =>
      rw [List.cons_append, List.takeWhile_cons, if_pos (hA a (List.mem_cons_self a A)),
        ih (fun x hx => hA x (List.mem_cons_of_mem a hx)), List.cons_append]

/-- The head left by `dropWhile` fails the predicate. -/
theorem dropWhile_head_not (p : Char → Bool) (l : List Char) (d : Char) :
    List.dropWhile p l = [] ∨ p ((List.dropWhile p l).headD d) = false := by
  induction l with
  | nil => exact Or.inl rfl
  | cons a t ih =>
      rw [List.dropWhile_cons]
      by_cases hp : p a = true
      · rw [if_pos hp]; exact ih
      · rw [if_neg hp]
        exact Or.inr (by rw [List.headD_cons]; exact Bool.eq_false_iff.mpr hp)

/-- A prefix is empty or preserves the head. -/
theorem take_headD_cases (l : List Char) (n : Nat) (d : Char) :
    l.take n = [] ∨ (l.take n).headD d = l.headD d := by
  cases n with
  | zero => exact Or.inl rfl
  | succ n =>
      cases l with
      | nil => exact Or.inl rfl
      | cons a t => exact Or.inr (by rw [List.take_succ_cons, List.headD_cons, List.headD_cons])

/-- `dropLast` is empty or preserves the head. -/
theorem dropLast_headD_cases (l : List Char) (d : Char) :
    l.dropLast = [] ∨ l.dropLast.headD d = l.headD d := by
  cases l with
  | nil => exact Or.inl rfl
  | cons a t =>
      cases t with
      | nil => exact Or.inl rfl
      | cons b t => exact Or.inr (by rw [List.dropLast_cons₂, List.headD_cons, List.headD_cons])

/-- `_splitparams` returns a prefix of its argument. -/
theorem splitparams_eq_take (l : List Char) : ∃ n, URLNormalizer.splitparams l = l.take n := by
  unfold URLNormalizer.splitparams
  by_cases h : l.contains '/' = true
  · rw [if_pos h]
    cases hf : URLNormalizer.findFrom l ';' (URLNormalizer.rfindSlash l) with
    | none => exact ⟨l.length, (List.take_length l).symm⟩
    | some i => exact ⟨i, rfl⟩
  · rw [if_neg h]
    cases hf : List.findIdx? (· = ';') l with
    | none => exact ⟨l.length, (List.take_length l).symm⟩
    | some i => exact ⟨i, rfl⟩

/-- A string equals the explicit `String.mk` of its character list. -/
theorem string_eq_mk {s : String} {l : List Char} (h : s.data = l) : s = ⟨l⟩ := by
  cases s; cases h; rfl

/-- The character classes used by the URL lemmas, checked over the
concrete scheme alphabet. -/
theorem scheme_chars_facts :
    ∀ c ∈ URLNormalizer.scheme_chars,
      URLNormalizer.isC0OrSpace c = false ∧ URLNormalizer.isUnsafeByte c = false ∧
      c ≠ ':' ∧ c.toLower ∈ URLNormalizer.scheme_chars ∧
      (c.isAlpha = true → c.toLower.isAlpha = true) := by decide

/-- Parsing a well-formed `scheme://netloc/path` string recovers its
three components. -/
theorem pyUrlparse_of_parts (A H P : List Char)
    (hA0 : A ≠ [])
    (hA1 : ∀ c ∈ A, c ∈ URLNormalizer.scheme_chars)
    (hA2 : (A.headD ' ').isAlpha = true)
    (hH : ∀ c ∈ H, c ≠ '/' ∧ c ≠ '?' ∧ c ≠ '#' ∧ c ≠ '[' ∧ c ≠ ']')
    (hHu : ∀ c ∈ H, URLNormalizer.isUnsafeByte c = false)
    (hP1 : ∀ c ∈ P, c ≠ '#' ∧ c ≠ '?')
    (hPu : ∀ c ∈ P, URLNormalizer.isUnsafeByte c = false)
    (hP2 : P = [] ∨ P.headD ' ' = '/')
    (hPs : ';' ∉ P) :
    URLNormalizer.pyUrlparse ⟨A ++ ':' :: '/' :: '/' :: (H ++ P)⟩ =
      Except.ok ⟨⟨A.map Char.toLower⟩, ⟨H⟩, ⟨P⟩⟩ := by
  obtain ⟨a0, A', rfl⟩ := List.exists_cons_of_ne_nil hA0
  have hC0 : URLNormalizer.isC0OrSpace a0 = false :=
    (scheme_chars_facts a0 (hA1 a0 (List.mem_cons_self a0 A'))).1
  have hfilterAll : ∀ c ∈ (a0 :: A') ++ ':' :: '/' :: '/' :: (H ++ P),
      (!URLNormalizer.isUnsafeByte c) = true := by
    intro c hc
    rcases List.mem_append.mp hc with hc | hc
    · simp [(scheme_chars_facts c (hA1 c hc)).2.1]
    · simp only [List.mem_cons] at hc
      rcases hc with rfl | rfl | rfl | hc
      · decide
      · decide
      · decide
      · rcases List.mem_append.mp hc with hc | hc
        · simp [hHu c hc]
        · simp [hPu c hc]
  have hurl0 : (((String.mk ((a0 :: A') ++ ':' :: '/' :: '/' :: (H ++ P))).toList.dropWhile
        URLNormalizer.isC0OrSpace).filter (fun c => !URLNormalizer.isUnsafeByte c)) =
      (a0 :: A') ++ ':' :: '/' :: '/' :: (H ++ P) := by
    show (((a0 :: A') ++ ':' :: '/' :: '/' :: (H ++ P)).dropWhile
        URLNormalizer.isC0OrSpace).filter (fun c => !URLNormalizer.isUnsafeByte c) = _
    rw [List.cons_append, List.dropWhile_cons, if_neg (by simp [hC0]), ← List.cons_append]
    exact List.filter_eq_self.mpr hfilterAll
  have hfind : List.findIdx? (fun c => c = ':')
      ((a0 :: A') ++ ':' :: '/' :: '/' :: (H ++ P)) = some (a0 :: A').length := by
    refine findIdx_app_of _ _ _ _ (fun a ha => ?_) (by simp)
    simp [(scheme_chars_facts a (hA1 a ha)).2.2.1]
  have hscheme : URLNormalizer.schemeOk ((a0 :: A') ++ ':' :: '/' :: '/' :: (H ++ P))
      (a0 :: A').length = true := by
    simp only [URLNormalizer.schemeOk, Bool.and_eq_true, decide_eq_true_eq]
    refine ⟨⟨by simp, ?_⟩, ?_⟩
    · rw [List.cons_append, List.headD_cons]
      exact hA2
    · rw [List.take_left, List.all_eq_true]
      intro c hc
      simp [hA1 c hc]
  have hdrop : ((a0 :: A') ++ ':' :: '/' :: '/' :: (H ++ P)).drop ((a0 :: A').length + 1) =
      '/' :: '/' :: (H ++ P) := by
    rw [← List.drop_drop, List.drop_left]
    rfl
  have htw : (H ++ P).takeWhile (fun c => !(c = '/' || c = '?' || c = '#')) = H := by
    rw [takeWhile_append_of_all _ _ _
      (fun x hx => by simp [(hH x hx).1, (hH x hx).2.1, (hH x hx).2.2.1])]
    rcases hP2 with rfl | hP2
    · simp
    · cases P with
      | nil => simp
      | cons p0 P' =>
          have hp0 : p0 = '/' := by simpa using hP2
          subst hp0
          rw [List.takeWhile_cons, if_neg (by simp)]
          simp
  have hbr1 : H.contains '[' = false := by
    simp only [List.elem_eq_mem, decide_eq_false_iff_not]
    intro hm; exact (hH _ hm).2.2.2.1 rfl
  have hbr2 : H.contains ']' = false := by
    simp only [List.elem_eq_mem, decide_eq_false_iff_not]
    intro hm; exact (hH _ hm).2.2.2.2 rfl
  have hhash : List.findIdx? (fun c => c = '#') P = none :=
    findIdx_none_of _ _ (fun a ha => by simp [(hP1 a ha).1])
  have hquery : List.findIdx? (fun c => c = '?') P = none :=
    findIdx_none_of _ _ (fun a ha => by simp [(hP1 a ha).2])
  have hsemi : P.contains ';' = false := by
    simp only [List.elem_eq_mem, decide_eq_false_iff_not]
    exact hPs
  simp only [URLNormalizer.pyUrlparse]
  rw [hurl0, hfind]
  simp only [hscheme, eq_self_iff_true, if_true]
  rw [hdrop, List.take_left]
  simp only [htw, hbr1, hbr2, Bool.or_self, Bool.false_eq_true, if_false, List.append_nil,
    List.drop_left, hhash, hquery, hsemi, Bool.and_false, if_false]

/-- When `findIdx?` misses, every element misses. -/
theorem findIdx_none_all {p : Char → Bool} {l : List Char}
    (h : List.findIdx? p l = none) : ∀ a ∈ l, p a = false := by
  induction l with
  | nil => intro a ha; simp at ha
  | cons x t ih =>
      rw [List.findIdx?_cons] at h
      by_cases hp : p x = true
      · rw [if_pos hp] at h; cases h
      · rw [if_neg hp, List.findIdx?_succ] at h
        intro a ha
        rcases List.mem_cons.mp ha with rfl | ha
        · exact Bool.eq_false_iff.mpr hp
        · exact ih (by simpa using h) a ha

/-- Dropping the length of `takeWhile` is `dropWhile`. -/
theorem drop_length_takeWhile (p : Char → Bool) (l : List Char) :
    l.drop (l.takeWhile p).length = l.dropWhile p := by
  induction l with
  | nil => rfl
  | cons a t ih =>
      rw [List.takeWhile_cons, List.dropWhile_cons]
      by_cases hp : p a = true
      · rw [if_pos hp, if_pos hp, List.length_cons, List.drop_succ_cons, ih]
      · rw [if_neg hp, if_neg hp]
        rfl

/-- The default head of a nonempty list is a member. -/
theorem headD_mem_of_ne_nil (l : List Char) (d : Char) (h : l ≠ []) : l.headD d ∈ l := by
  cases l with
  | nil => exact absurd rfl h
  | cons a t => simp

/-- Facts about one `take`-at-first-occurrence stage of `urlsplit`. -/
theorem cut_facts (p : Char → Bool) (l : List Char) (r : List Char)
    (hr : r = match List.findIdx? p l with | some i => l.take i | none => l) :
    (∀ c ∈ r, p c = false) ∧ r ⊆ l ∧ (r = [] ∨ r.headD ' ' = l.headD ' ') := by
  subst hr
  cases hf : List.findIdx? p l with
  | some i => exact ⟨take_findIdx_false hf, List.take_subset i l, take_headD_cases l i ' '⟩
  | none => exact ⟨findIdx_none_all hf, fun c hc => hc, Or.inr rfl⟩

/-- Wrap-up of the path-stage facts, from the properties of the
post-netloc remainder. -/
theorem path_core (u2 P : List Char)
    (hsub : P ⊆ u2)
    (hA3 : ∀ c ∈ P, decide (c = '#') = false)
    (hA4 : ∀ c ∈ P, decide (c = '?') = false)
    (hu : ∀ c ∈ u2, URLNormalizer.isUnsafeByte c = false)
    (hhd : P = [] ∨ P.headD ' ' = u2.headD ' ')
    (hh : u2 = [] ∨ u2.headD ' ' = '/' ∨ u2.headD ' ' = '?' ∨ u2.headD ' ' = '#') :
    (∀ c ∈ P, c ≠ '#' ∧ c ≠ '?') ∧ (∀ c ∈ P, URLNormalizer.isUnsafeByte c = false) ∧
    (P = [] ∨ P.headD ' ' = '/') := by
  refine ⟨fun c hc => ⟨of_decide_eq_false (hA3 c hc), of_decide_eq_false (hA4 c hc)⟩,
    fun c hc => hu c (hsub hc), ?_⟩
  rcases hhd with h0 | hh2
  · exact Or.inl h0
  by_cases hP0 : P = []
  · exact Or.inl hP0
  have hm : P.headD ' ' ∈ P := headD_mem_of_ne_nil P ' ' hP0
  rcases hh with h2 | h2 | h2 | h2
  · exact Or.inl (List.subset_nil.mp (h2 ▸ hsub))
  · exact Or.inr (hh2.trans h2)
  · exact absurd (hh2.trans h2) (of_decide_eq_false (hA4 _ hm))
  · exact absurd (hh2.trans h2) (of_decide_eq_false (hA3 _ hm))

/-- The fragment/query/params stage of `urlsplit` keeps the path free of
`#` and `?`, free of unsafe bytes, and empty or slash-headed. -/
theorem path_stage_props (b : Bool) (u2 u3 u4 p : List Char)
    (h3 : u3 = match List.findIdx? (fun c => decide (c = '#')) u2 with
      | some i => u2.take i | none => u2)
    (h4 : u4 = match List.findIdx? (fun c => decide (c = '?')) u3 with
      | some i => u3.take i | none => u3)
    (hp : p = if b && u4.contains ';'
        then URLNormalizer.splitparams u4 else u4)
    (hu : ∀ c ∈ u2, URLNormalizer.isUnsafeByte c = false)
    (hh : u2 = [] ∨ u2.headD ' ' = '/' ∨ u2.headD ' ' = '?' ∨ u2.headD ' ' = '#') :
    (∀ c ∈ p, c ≠ '#' ∧ c ≠ '?') ∧ (∀ c ∈ p, URLNormalizer.isUnsafeByte c = false) ∧
    (p = [] ∨ p.headD ' ' = '/') := by
  obtain ⟨A3, S3, H3⟩ := cut_facts _ u2 u3 h3
  obtain ⟨A4, S4, H4⟩ := cut_facts _ u3 u4 h4
  have hPfacts : p ⊆ u4 ∧ (p = [] ∨ p.headD ' ' = u4.headD ' ') := by
    by_cases hc : (b && u4.contains ';') = true
    · rw [hp, if_pos hc]
      obtain ⟨n, hn⟩ := splitparams_eq_take u4
      rw [hn]
      exact ⟨List.take_subset n u4, take_headD_cases u4 n ' '⟩
    · rw [hp, if_neg hc]
      exact ⟨fun c hc => hc, Or.inr rfl⟩
  obtain ⟨SP, HP⟩ := hPfacts
  refine path_core u2 p (fun c hc => S3 (S4 (SP hc))) (fun c hc => A3 c (S4 (SP hc)))
    (fun c hc => A4 c (SP hc)) hu ?_ hh
  rcases HP with hP0 | hPh
  · exact Or.inl hP0
  rcases H4 with h40 | h4h
  · exact Or.inl (List.subset_nil.mp (h40 ▸ SP))
  rcases H3 with h30 | h3h
  · exact Or.inl (List.subset_nil.mp (h30 ▸ fun a ha => S4 (SP ha)))
  · exact Or.inr (by rw [hPh, h4h, h3h])

/-- Facts about the netloc/remainder split of `urlsplit`. -/
theorem netloc_facts (url0 rest : List Char)
    (hu0 : ∀ c ∈ url0, URLNormalizer.isUnsafeByte c = false) (hsub : rest ⊆ url0) :
    (∀ c ∈ rest.takeWhile (fun c => !(c = '/' || c = '?' || c = '#')),
        c ≠ '/' ∧ c ≠ '?' ∧ c ≠ '#') ∧
    (∀ c ∈ rest.takeWhile (fun c => !(c = '/' || c = '?' || c = '#')),
        URLNormalizer.isUnsafeByte c = false) ∧
    (∀ c ∈ rest.drop (rest.takeWhile (fun c => !(c = '/' || c = '?' || c = '#'))).length,
        URLNormalizer.isUnsafeByte c = false) ∧
    (rest.drop (rest.takeWhile (fun c => !(c = '/' || c = '?' || c = '#'))).length = [] ∨
      (rest.drop (rest.takeWhile (fun c => !(c = '/' || c = '?' || c = '#'))).length).headD ' ' = '/' ∨
      (rest.drop (rest.takeWhile (fun c => !(c = '/' || c = '?' || c = '#'))).length).headD ' ' = '?' ∨
      (rest.drop (rest.takeWhile (fun c => !(c = '/' || c = '?' || c = '#'))).length).headD ' ' = '#') := by
  have hmemtw : ∀ c ∈ rest.takeWhile (fun c => !(c = '/' || c = '?' || c = '#')), c ∈ rest := by
    intro c hc
    rw [← List.takeWhile_append_dropWhile (p := fun c => !(c = '/' || c = '?' || c = '#')) (l := rest)]
    exact List.mem_append.mpr (Or.inl hc)
  refine ⟨?_, fun c hc => hu0 c (hsub (hmemtw c hc)), ?_, ?_⟩
  · intro c hc
    have := List.mem_takeWhile_imp hc
    simp only [Bool.not_eq_eq_eq_not, Bool.not_true, Bool.or_eq_false_iff,
      decide_eq_false_iff_not] at this
    exact ⟨this.1.1, this.1.2, this.2⟩
  · intro c hc
    rw [drop_length_takeWhile] at hc
    exact hu0 c (hsub (List.dropWhile_sublist _ |>.subset hc))
  · rw [drop_length_takeWhile]
    rcases dropWhile_head_not (fun c => !(c = '/' || c = '?' || c = '#')) rest ' ' with h0 | hhd
    · exact Or.inl h0
    · simp only [Bool.not_eq_eq_eq_not, Bool.not_false, Bool.or_eq_true_iff,
        decide_eq_true_eq] at hhd
      rcases hhd with (h | h) | h
      · exact Or.inr (Or.inl h)
      · exact Or.inr (Or.inr (Or.inl h))
      · exact Or.inr (Or.inr (Or.inr h))

/-- Facts about the scheme split of `urlsplit`: the produced scheme is
empty or a nonempty lower-case-stable run of scheme characters headed by
a letter, and the remainder is part of the input. -/
theorem scheme_split_props (url0 : List Char) (S : String) (url1 : List Char)
    (hS : (S, url1) = match List.findIdx? (fun c => decide (c = ':')) url0 with
      | some i =>
          if URLNormalizer.schemeOk url0 i = true then
            (⟨(url0.take i).map Char.toLower⟩, url0.drop (i + 1))
          else ("", url0)
      | none => ("", url0)) :
    (S = "" ∨ (S.toList ≠ [] ∧ (∀ c ∈ S.toList, c ∈ URLNormalizer.scheme_chars) ∧
      ((S.toList.headD ' ').isAlpha = true) ∧ S.toList.map Char.toLower = S.toList)) ∧
    url1 ⊆ url0 := by
  cases hf : List.findIdx? (fun c => decide (c = ':')) url0 with
  | none =>
      replace hS : (S, url1) = ("", url0) := by rw [hf] at hS; exact hS
      injection hS with h1 h2
      subst h1; subst h2
      exact ⟨Or.inl rfl, fun c hc => hc⟩
  | some i =>
      replace hS : (S, url1) =
          (if URLNormalizer.schemeOk url0 i = true then
            (⟨(url0.take i).map Char.toLower⟩, url0.drop (i + 1))
          else ("", url0)) := by rw [hf] at hS; exact hS
      by_cases hsc : URLNormalizer.schemeOk url0 i = true
      · rw [if_pos hsc] at hS
        injection hS with h1 h2
        subst h1; subst h2
        simp only [URLNormalizer.schemeOk, Bool.and_eq_true, decide_eq_true_eq,
          List.all_eq_true] at hsc
        obtain ⟨⟨hi, hhd⟩, hall⟩ := hsc
        have hlen : i < url0.length := findIdx_lt_length hf
        have htne : url0.take i ≠ [] := by
          intro hnil
          have := congrArg List.length hnil
          simp only [List.length_take, List.length_nil] at this
          omega
        obtain ⟨c0, t0, htake⟩ := List.exists_cons_of_ne_nil htne
        have hc0mem : c0 ∈ url0.take i := by rw [htake]; exact List.mem_cons_self c0 t0
        have hc0sc : c0 ∈ URLNormalizer.scheme_chars := by
          have := hall c0 hc0mem
          simpa using this
        have hc0hd : c0 = url0.headD ' ' := by
          rcases take_headD_cases url0 i ' ' with h0 | hh
          · exact absurd h0 htne
          · rw [htake, List.headD_cons] at hh
            exact hh
        refine ⟨Or.inr ⟨?_, ?_, ?_, ?_⟩, List.drop_subset (i + 1) url0⟩
        · show (url0.take i).map Char.toLower ≠ []
          rw [htake]
          simp
        · show ∀ c ∈ (url0.take i).map Char.toLower, c ∈ URLNormalizer.scheme_chars
          intro c hc
          rcases List.mem_map.mp hc with ⟨x, hx, rfl⟩
          have hxs : x ∈ URLNormalizer.scheme_chars := by
            have := hall x hx
            simpa using this
          exact (scheme_chars_facts x hxs).2.2.2.1
        · show ((((url0.take i).map Char.toLower).headD ' ').isAlpha) = true
          rw [htake, List.map_cons, List.headD_cons]
          refine (scheme_chars_facts c0 hc0sc).2.2.2.2 ?_
          rw [hc0hd]
          exact hhd
        · show ((url0.take i).map Char.toLower).map Char.toLower =
            (url0.take i).map Char.toLower
          rw [List.map_map]
          exact List.map_eq_map_iff.mpr fun a _ => toLower_idem a
      · rw [if_neg hsc] at hS
        injection hS with h1 h2
        subst h1; subst h2
        exact ⟨Or.inl rfl, fun c hc => hc⟩

theorem pyUrlparse_ok_props (s : String) (pr : URLNormalizer.ParseResult)
    (h : URLNormalizer.pyUrlparse s = Except.ok pr) (hn : pr.netloc ≠ "") :
    (pr.scheme = "" ∨ (pr.scheme.toList ≠ [] ∧
      (∀ c ∈ pr.scheme.toList, c ∈ URLNormalizer.scheme_chars) ∧
      ((pr.scheme.toList.headD ' ').isAlpha = true) ∧
      pr.scheme.toList.map Char.toLower = pr.scheme.toList)) ∧
    (∀ c ∈ pr.netloc.toList, c ≠ '/' ∧ c ≠ '?' ∧ c ≠ '#' ∧ c ≠ '[' ∧ c ≠ ']') ∧
    (∀ c ∈ pr.netloc.toList, URLNormalizer.isUnsafeByte c = false) ∧
    (∀ c ∈ pr.path.toList, c ≠ '#' ∧ c ≠ '?') ∧
    (∀ c ∈ pr.path.toList, URLNormalizer.isUnsafeByte c = false) ∧
    (pr.path.toList = [] ∨ pr.path.toList.headD ' ' = '/') := by
  simp only [URLNormalizer.pyUrlparse] at h
  split at h
  · exact absurd h (by simp)
  · next netloc url2 heq =>
    injection h with h
    subst h
    split at heq
    · next rest heq2 =>
      split at heq
      · exact absurd heq (by simp)
      · next hbr =>
        injection heq with heq
        injection heq with heqn hequ
        subst heqn
        subst hequ
        dsimp only
        have hu0 : ∀ c ∈ List.filter (fun c => !URLNormalizer.isUnsafeByte c)
            (List.dropWhile URLNormalizer.isC0OrSpace s.toList),
            URLNormalizer.isUnsafeByte c = false := by
          intro c hc
          have := List.of_mem_filter hc
          simpa using this
        obtain ⟨hSch, hU1⟩ := scheme_split_props
          (List.filter (fun c => !URLNormalizer.isUnsafeByte c)
            (List.dropWhile URLNormalizer.isC0OrSpace s.toList)) _ _ rfl
        have hrest : rest ⊆ List.filter (fun c => !URLNormalizer.isUnsafeByte c)
            (List.dropWhile URLNormalizer.isC0OrSpace s.toList) := by
          intro c hc
          have hm : c ∈ '/' :: '/' :: rest :=
            List.mem_cons_of_mem _ (List.mem_cons_of_mem _ hc)
          rw [← heq2] at hm
          exact hU1 hm
        obtain ⟨hN1, hN2, hU2u, hU2h⟩ := netloc_facts
          (List.filter (fun c => !URLNormalizer.isUnsafeByte c)
            (List.dropWhile URLNormalizer.isC0OrSpace s.toList)) rest hu0 hrest
        obtain ⟨hp1, hp2, hp3⟩ := path_stage_props _ _ _ _ _ rfl rfl rfl hU2u hU2h
        have hbrackets :
            '[' ∉ List.takeWhile (fun c => !(decide (c = '/') || decide (c = '?') ||
              decide (c = '#'))) rest ∧
            ']' ∉ List.takeWhile (fun c => !(decide (c = '/') || decide (c = '?') ||
              decide (c = '#'))) rest := by
          constructor
          · intro hm
            exact hbr (by rw [Bool.or_eq_true]; exact Or.inl (List.elem_iff.mpr hm))
          · intro hm
            exact hbr (by rw [Bool.or_eq_true]; exact Or.inr (List.elem_iff.mpr hm))
        refine ⟨hSch, ?_, ?_, ?_, ?_, ?_⟩
        · intro c hc
          obtain ⟨hn1, hn2, hn3⟩ := hN1 c hc
          exact ⟨hn1, hn2, hn3, fun he => hbrackets.1 (he ▸ hc),
            fun he => hbrackets.2 (he ▸ hc)⟩
        · exact hN2
        · exact hp1
        · exact hp2
        · exact hp3
    · next hother =>
      injection heq with heq
      injection heq with heqn hequ
      subst heqn
      exact absurd rfl hn

/-- `stripTrailingSlash` fixes a string whose final character is not a
slash-to-strip. -/
theorem strip_of_getLast (p : String) (h : p.toList.getLast? = some '/' → p = "/") :
    URLNormalizer.stripTrailingSlash p = p := by
  unfold URLNormalizer.stripTrailingSlash
  split
  · next hcond =>
    rw [Bool.and_eq_true] at hcond
    have h1 : p.toList.getLast? = some '/' := by simpa using hcond.1
    have h2 : ¬(p = "/") := by simpa using hcond.2
    exact absurd (h h1) h2
  · rfl

/-- `stripTrailingSlash` keeps the list or drops the last character. -/
theorem stripTrailingSlash_cases (p : String) :
    (URLNormalizer.stripTrailingSlash p).toList = p.toList ∨
    (URLNormalizer.stripTrailingSlash p).toList = p.toList.dropLast := by
  unfold URLNormalizer.stripTrailingSlash
  split
  · exact Or.inr rfl
  · exact Or.inl rfl

/-- Conditional idempotence of `normalize_url`: when the stripped input
parses with a nonempty netloc and the produced URL is strip-stable, free
of semicolons, and not slash-terminated (except a bare root path), a
second normalization returns it unchanged. -/
theorem normalize_url_idem_of (s : String) (pr : URLNormalizer.ParseResult)
    (hparse : URLNormalizer.pyUrlparse (pyStrip s) = Except.ok pr)
    (hnet : pr.netloc ≠ "")
    (hstripO : pyStrip (URLNormalizer.normalize_url (some s)) =
      URLNormalizer.normalize_url (some s))
    (hsemi : ';' ∉ (URLNormalizer.normalize_url (some s)).toList)
    (hslash : (URLNormalizer.stripTrailingSlash pr.path).toList.getLast? = some '/' →
      URLNormalizer.stripTrailingSlash pr.path = "/") :
    URLNormalizer.normalize_url (some (URLNormalizer.normalize_url (some s))) =
      URLNormalizer.normalize_url (some s) := by
  obtain ⟨hSch, hNstop, hNu, hPno, hPu, hPhd⟩ := pyUrlparse_ok_props (pyStrip s) pr hparse hnet
  have hhh : URLNormalizer.hostHeuristic pr.netloc pr.path = false := by
    unfold URLNormalizer.hostHeuristic
    simp only [beq_eq_false_iff_ne.mpr hnet, Bool.false_and]
  have hO : URLNormalizer.normalize_url (some s) =
      (if (if pr.scheme == "" then "" else pyLower pr.scheme) == "" then "https"
        else (if pr.scheme == "" then "" else pyLower pr.scheme)) ++ "://" ++
        pyLower pr.netloc ++ URLNormalizer.stripTrailingSlash pr.path := by
    simp only [URLNormalizer.normalize_url, hparse, hhh, Bool.false_eq_true, if_false]
  have hS1 : (if (if pr.scheme == "" then "" else pyLower pr.scheme) == "" then "https"
      else (if pr.scheme == "" then "" else pyLower pr.scheme)) =
      (if pr.scheme == "" then "https" else pyLower pr.scheme) := by
    by_cases h0 : (pr.scheme == "") = true
    · simp [h0]
    · have hne : pr.scheme ≠ "" := by simpa using h0
      have hlne : pyLower pr.scheme ≠ "" := by
        intro hc
        apply hne
        have hl : List.map Char.toLower pr.scheme.toList = [] := congrArg String.toList hc
        exact string_eq_mk (List.map_eq_nil_iff.mp hl)
      simp [h0, beq_eq_false_iff_ne.mpr hlne]
  rw [hS1] at hO
  have hAprops : (if pr.scheme == "" then "https" else pyLower pr.scheme).toList ≠ [] ∧
      (∀ c ∈ (if pr.scheme == "" then "https" else pyLower pr.scheme).toList,
        c ∈ URLNormalizer.scheme_chars) ∧
      (((if pr.scheme == "" then "https" else pyLower pr.scheme).toList.headD ' ').isAlpha
        = true) ∧
      (if pr.scheme == "" then "https" else pyLower pr.scheme).toList.map Char.toLower =
        (if pr.scheme == "" then "https" else pyLower pr.scheme).toList := by
    by_cases h0 : (pr.scheme == "") = true
    · rw [if_pos h0]
      exact ⟨by decide, by decide, by decide, by decide⟩
    · rw [if_neg h0]
      have hne : pr.scheme ≠ "" := by simpa using h0
      rcases hSch with h | ⟨hs1, hs2, hs3, hs4⟩
      · exact absurd h hne
      have hstab : pyLower pr.scheme = pr.scheme := string_eq_mk hs4
      rw [hstab]
      exact ⟨hs1, hs2, hs3, hs4⟩
  have hHne : (pyLower pr.netloc).toList ≠ [] := by
    intro hc
    apply hnet
    have hl : pr.netloc.toList = [] := List.map_eq_nil_iff.mp hc
    exact string_eq_mk hl
  have hHstops : ∀ c ∈ (pyLower pr.netloc).toList,
      c ≠ '/' ∧ c ≠ '?' ∧ c ≠ '#' ∧ c ≠ '[' ∧ c ≠ ']' := by
    intro c hc
    rcases List.mem_map.mp hc with ⟨x, hx, rfl⟩
    obtain ⟨k1, k2, k3, k4, k5⟩ := hNstop x hx
    exact ⟨fun he => k1 (toLower_fix_of_out he (Or.inl (by decide))),
      fun he => k2 (toLower_fix_of_out he (Or.inl (by decide))),
      fun he => k3 (toLower_fix_of_out he (Or.inl (by decide))),
      fun he => k4 (toLower_fix_of_out he (Or.inl (by decide))),
      fun he => k5 (toLower_fix_of_out he (Or.inl (by decide)))⟩
  have hHu : ∀ c ∈ (pyLower pr.netloc).toList, URLNormalizer.isUnsafeByte c = false := by
    intro c hc
    rcases List.mem_map.mp hc with ⟨x, hx, rfl⟩
    have hxu := hNu x hx
    by_cases hb : URLNormalizer.isUnsafeByte x.toLower = true
    · exfalso
      simp only [URLNormalizer.isUnsafeByte, Bool.or_eq_true, decide_eq_true_eq] at hb
      rcases hb with (he | he) | he
      · rw [toLower_fix_of_out he (Or.inl (by decide))] at hxu
        exact absurd hxu (by decide)
      · rw [toLower_fix_of_out he (Or.inl (by decide))] at hxu
        exact absurd hxu (by decide)
      · rw [toLower_fix_of_out he (Or.inl (by decide))] at hxu
        exact absurd hxu (by decide)
    · exact Bool.eq_false_iff.mpr hb
  have hHstab : (pyLower pr.netloc).toList.map Char.toLower = (pyLower pr.netloc).toList := by
    show (List.map Char.toLower pr.netloc.toList).map Char.toLower =
      List.map Char.toLower pr.netloc.toList
    rw [List.map_map]
    exact List.map_eq_map_iff.mpr fun a _ => toLower_idem a
  have hPsub : (URLNormalizer.stripTrailingSlash pr.path).toList ⊆ pr.path.toList := by
    rcases stripTrailingSlash_cases pr.path with h | h
    · rw [h]; exact fun a ha => ha
    · rw [h]; exact List.dropLast_subset _
  have hPno2 : ∀ c ∈ (URLNormalizer.stripTrailingSlash pr.path).toList, c ≠ '#' ∧ c ≠ '?' :=
    fun c hc => hPno c (hPsub hc)
  have hPu2 : ∀ c ∈ (URLNormalizer.stripTrailingSlash pr.path).toList,
      URLNormalizer.isUnsafeByte c = false :=
    fun c hc => hPu c (hPsub hc)
  have hPhd2 : (URLNormalizer.stripTrailingSlash pr.path).toList = [] ∨
      (URLNormalizer.stripTrailingSlash pr.path).toList.headD ' ' = '/' := by
    rcases stripTrailingSlash_cases pr.path with h | h
    · rw [h]; exact hPhd
    · rw [h]
      rcases dropLast_headD_cases pr.path.toList ' ' with h2 | h2
      · exact Or.inl h2
      · rcases hPhd with h3 | h3
        · rw [h3]
          exact Or.inl rfl
        · exact Or.inr (h2.trans h3)
  have hOlist : (URLNormalizer.normalize_url (some s)).toList =
      (if pr.scheme == "" then "https" else pyLower pr.scheme).toList ++
        ':' :: '/' :: '/' :: ((pyLower pr.netloc).toList ++
          (URLNormalizer.stripTrailingSlash pr.path).toList) := by
    rw [hO]
    show ((((if pr.scheme == "" then "https" else pyLower pr.scheme).toList ++
        [':', '/', '/']) ++ (pyLower pr.netloc).toList) ++
        (URLNormalizer.stripTrailingSlash pr.path).toList) = _
    simp [List.append_assoc]
  have hPs : ';' ∉ (URLNormalizer.stripTrailingSlash pr.path).toList := by
    intro hm
    apply hsemi
    rw [hOlist]
    refine List.mem_append.mpr (Or.inr ?_)
    refine List.mem_cons_of_mem _ (List.mem_cons_of_mem _ (List.mem_cons_of_mem _ ?_))
    exact List.mem_append.mpr (Or.inr hm)
  have h2 := pyUrlparse_of_parts
    (if pr.scheme == "" then "https" else pyLower pr.scheme).toList
    (pyLower pr.netloc).toList
    (URLNormalizer.stripTrailingSlash pr.path).toList
    hAprops.1 hAprops.2.1 hAprops.2.2.1 hHstops hHu hPno2 hPu2 hPhd2 hPs
  rw [hAprops.2.2.2] at h2
  have h2' : URLNormalizer.pyUrlparse
      ⟨(if pr.scheme == "" then "https" else pyLower pr.scheme).toList ++
        ':' :: '/' :: '/' :: ((pyLower pr.netloc).toList ++
          (URLNormalizer.stripTrailingSlash pr.path).toList)⟩ =
      Except.ok ⟨(if pr.scheme == "" then "https" else pyLower pr.scheme),
        pyLower pr.netloc, URLNormalizer.stripTrailingSlash pr.path⟩ := h2
  have hOmk : URLNormalizer.normalize_url (some s) =
      ⟨(if pr.scheme == "" then "https" else pyLower pr.scheme).toList ++
        ':' :: '/' :: '/' :: ((pyLower pr.netloc).toList ++
          (URLNormalizer.stripTrailingSlash pr.path).toList)⟩ := string_eq_mk hOlist
  rw [hOmk] at hstripO
  have hScne : ((if pr.scheme == "" then "https" else pyLower pr.scheme) == "") = false := by
    refine beq_eq_false_iff_ne.mpr fun he => hAprops.1 ?_
    rw [he]
    rfl
  have hScstab : pyLower (if pr.scheme == "" then "https" else pyLower pr.scheme) =
      (if pr.scheme == "" then "https" else pyLower pr.scheme) :=
    string_eq_mk hAprops.2.2.2
  have hnet2 : pyLower pr.netloc ≠ "" := by
    intro he
    exact hHne (by rw [he]; rfl)
  have hhh2 : URLNormalizer.hostHeuristic (pyLower pr.netloc)
      (URLNormalizer.stripTrailingSlash pr.path) = false := by
    unfold URLNormalizer.hostHeuristic
    simp only [beq_eq_false_iff_ne.mpr hnet2, Bool.false_and]
  have hHlstab : pyLower (pyLower pr.netloc) = pyLower pr.netloc := string_eq_mk hHstab
  have hstrip2 : URLNormalizer.stripTrailingSlash (URLNormalizer.stripTrailingSlash pr.path) =
      URLNormalizer.stripTrailingSlash pr.path :=
    strip_of_getLast (URLNormalizer.stripTrailingSlash pr.path) hslash
  conv_lhs => rw [hOmk]
  rw [hO]
  simp only [URLNormalizer.normalize_url, hstripO, h2', hhh2, Bool.false_eq_true, if_false,
    hScne, hScstab, hHlstab, hstrip2]

/-- C6: (corrected) `normalize_url` maps `None` to the empty string and
falls back to `strip(raw).lower()` on a parse failure, but it is NOT
idempotent in general; idempotence holds under the stated side
conditions (stripped input parses with a nonempty netloc; the produced
URL is strip-stable, semicolon-free, and not slash-terminated except for
a bare root path). -/
theorem C6_normalize_idempotence :
    (URLNormalizer.normalize_url none = "") ∧
    (∀ s : String, URLNormalizer.pyUrlparse (pyStrip s) = Except.error () →
      URLNormalizer.normalize_url (some s) = pyLower (pyStrip s)) ∧
    (∀ (s : String) (pr : URLNormalizer.ParseResult),
      URLNormalizer.pyUrlparse (pyStrip s) = Except.ok pr →
      pr.netloc ≠ "" →
      pyStrip (URLNormalizer.normalize_url (some s)) = URLNormalizer.normalize_url (some s) →
      ';' ∉ (URLNormalizer.normalize_url (some s)).toList →
      ((URLNormalizer.stripTrailingSlash pr.path).toList.getLast? = some '/' →
        URLNormalizer.stripTrailingSlash pr.path = "/") →
      URLNormalizer.normalize_url (some (URLNormalizer.normalize_url (some s))) =
        URLNormalizer.normalize_url (some s)) := by
  refine ⟨rfl, ?_, ?_⟩
  · intro s he
    simp only [URLNormalizer.normalize_url, he]
  · intro s pr h1 h2 h3 h4 h5
    exact normalize_url_idem_of s pr h1 h2 h3 h4 h5

/-- C6 witness: a concrete URL on which the conditional idempotence
result applies with every hypothesis discharged by evaluation. -/
theorem C6_normalize_idempotence_witness :
    URLNormalizer.normalize_url
        (some (URLNormalizer.normalize_url (some "HTTPS://Example.COM/Path"))) =
      URLNormalizer.normalize_url (some "HTTPS://Example.COM/Path") :=
  C6_normalize_idempotence.2.2 "HTTPS://Example.COM/Path"
    ⟨"https", "Example.COM", "/Path"⟩ rfl (by decide) rfl (by decide) (by decide)

/-- C6 counterexample: `normalize_url` is not idempotent.  A bare word
gains an `https://` prefix whose host part is then lower-cased only on
the second pass, and a path whose last segment acquires a `;` suffix
after trailing-slash removal loses that suffix on the second pass. -/
theorem C6_counterexample :
    URLNormalizer.normalize_url (some "A") = "https://A" ∧
    URLNormalizer.normalize_url (some (URLNormalizer.normalize_url (some "A"))) =
      "https://a" ∧
    URLNormalizer.normalize_url (some (URLNormalizer.normalize_url (some "A"))) ≠
      URLNormalizer.normalize_url (some "A") ∧
    URLNormalizer.normalize_url (some "https://host/b;x/") = "https://host/b;x" ∧
    URLNormalizer.normalize_url
        (some (URLNormalizer.normalize_url (some "https://host/b;x/"))) =
      "https://host/b" :=
  ⟨rfl, rfl, by decide, rfl, rfl⟩

/-- C1 counterexample: in the taxonomy built from `cNodes`, node `C`
(level 3, child of `B`) is assigned code `IAB1-1` while its parent `B`
also holds code `IAB1-1`: the child code ignores the parent code (it is
built from the top-level rank only), so it does not start with the
parent code followed by a dash. -/
theorem C1_counterexample :
    ∃ es, TaxonomyIndex.parse_iab_tsv_nodes cNodes = .ok es ∧
      es.take 3 = [⟨some "IAB1", "A", ["A"], 1, none⟩,
        ⟨some "IAB1-1", "B", ["A", "B"], 2, some "IAB1"⟩,
        ⟨some "IAB1-1", "C", ["A", "B", "C"], 3, some "IAB1-1"⟩] ∧
      pyStartsWith "IAB1-1" ("IAB1-1" ++ "-") = false :=
  ⟨_, rfl, rfl, rfl⟩



/-- `dict.get` on a cons cell. -/
theorem alget_cons {α : Type} (k0 : String) (v0 : α) (t : List (String × α)) (k : String) :
    TaxonomyIndex.alget ((k0, v0) :: t) k = if k0 = k then some v0 else TaxonomyIndex.alget t k := by
  by_cases h : k0 = k
  · simp [TaxonomyIndex.alget, List.find?_cons, h]
  · simp [TaxonomyIndex.alget, List.find?_cons, h]

/-- Writing a key then reading it gives the written value. -/
theorem alget_alistSet_same {α : Type} (l : List (String × α)) (k : String) (v : α) :
    TaxonomyIndex.alget (ReconciliationEngine.alistSet l k v) k = some v := by
  induction l with
  | nil => simp [ReconciliationEngine.alistSet, alget_cons]
  | cons p t ih =>
      obtain ⟨k0, v0⟩ := p
      by_cases h : k0 = k
      · subst h
        simp [ReconciliationEngine.alistSet, alget_cons]
      · rw [show ReconciliationEngine.alistSet ((k0, v0) :: t) k v =
            (k0, v0) :: ReconciliationEngine.alistSet t k v by
          simp [ReconciliationEngine.alistSet, h], alget_cons, if_neg h]
        exact ih

/-- Writing one key leaves every other key unchanged. -/
theorem alget_alistSet_ne {α : Type} (l : List (String × α)) (k k' : String) (v : α)
    (h : k' ≠ k) :
    TaxonomyIndex.alget (ReconciliationEngine.alistSet l k v) k' = TaxonomyIndex.alget l k' := by
  induction l with
  | nil =>
      rw [show ReconciliationEngine.alistSet ([] : List (String × α)) k v = [(k, v)] from rfl,
        alget_cons, if_neg (Ne.symm h)]
  | cons p t ih =>
      obtain ⟨k0, v0⟩ := p
      by_cases h0 : k0 = k
      · subst h0
        rw [show ReconciliationEngine.alistSet ((k0, v0) :: t) k0 v = (k0, v) :: t by
          simp [ReconciliationEngine.alistSet], alget_cons, alget_cons,
          if_neg (fun he => h he.symm), if_neg (fun he => h he.symm)]
      · rw [show ReconciliationEngine.alistSet ((k0, v0) :: t) k v =
            (k0, v0) :: ReconciliationEngine.alistSet t k v by
          simp [ReconciliationEngine.alistSet, h0], alget_cons, alget_cons, ih]

/-- A fold of keyed writes leaves absent keys unchanged. -/
theorem alget_foldl_frame {α β : Type} (f : β → String) (g : β → α) (l : List β)
    (acc : List (String × α)) (u : String) (h : ∀ b ∈ l, f b ≠ u) :
    TaxonomyIndex.alget
      (l.foldl (fun a b => ReconciliationEngine.alistSet a (f b) (g b)) acc) u =
    TaxonomyIndex.alget acc u := by
  induction l generalizing acc with
  | nil => rfl
  | cons b t ih =>
      rw [List.foldl_cons, ih _ (fun x hx => h x (List.mem_cons_of_mem b hx)),
        alget_alistSet_ne _ _ _ _ fun he => h b (List.mem_cons_self b t) he.symm]

/-- Under distinct uids, the uid-to-parent dictionary looks up the
node's own parent pointer. -/
theorem alget_uid_to_parent_aux (l : List TaxonomyIndex.RawNode)
    (acc : List (String × Option String))
    (hnd : (l.map TaxonomyIndex.RawNode.uid).Nodup) (n : TaxonomyIndex.RawNode)
    (hn : n ∈ l) :
    TaxonomyIndex.alget
      (l.foldl (fun a m => ReconciliationEngine.alistSet a m.uid m.parent_uid) acc) n.uid =
      some n.parent_uid := by
  induction l generalizing acc with
  | nil => cases hn
  | cons m t ih =>
      rw [List.map_cons, List.nodup_cons] at hnd
      rw [List.foldl_cons]
      rcases List.mem_cons.mp hn with rfl | hn'
      · rw [alget_foldl_frame TaxonomyIndex.RawNode.uid TaxonomyIndex.RawNode.parent_uid t _
          n.uid (fun b hb he => hnd.1 (he ▸ List.mem_map_of_mem _ hb))]
        exact alget_alistSet_same _ _ _
      · exact ih _ hnd.2 hn'

/-- `uid_to_parent` lookup for a node of a duplicate-free list. -/
theorem alget_uid_to_parent (nodes : List TaxonomyIndex.RawNode)
    (hnd : (nodes.map TaxonomyIndex.RawNode.uid).Nodup) (n : TaxonomyIndex.RawNode)
    (hn : n ∈ nodes) :
    TaxonomyIndex.alget (TaxonomyIndex.uid_to_parent_of nodes) n.uid = some n.parent_uid :=
  alget_uid_to_parent_aux nodes [] hnd n hn

/-- `top_rank_of` at a parentless uid reads the recorded rank. -/
theorem top_rank_of_root (u2p : List (String × Option String)) (trb : List (String × Nat))
    (fuel : Nat) (u : String) (h : TaxonomyIndex.alget u2p u = some none) :
    TaxonomyIndex.top_rank_of u2p trb (fuel + 1) u = (TaxonomyIndex.alget trb u).getD 0 := by
  rw [TaxonomyIndex.top_rank_of, h]

/-- Reading the key just appended to a group. -/
theorem alget_groupAppend_same (l : List (String × List TaxonomyIndex.RawNode))
    (k : String) (n : TaxonomyIndex.RawNode) :
    TaxonomyIndex.alget (TaxonomyIndex.groupAppend l k n) k =
      some ((TaxonomyIndex.alget l k).getD [] ++ [n]) := by
  induction l with
  | nil =>
      rw [show TaxonomyIndex.groupAppend [] k n = [(k, [n])] from rfl, alget_cons, if_pos rfl]
      rfl
  | cons p t ih =>
      obtain ⟨k0, ns⟩ := p
      by_cases h : k0 = k
      · subst h
        rw [show TaxonomyIndex.groupAppend ((k0, ns) :: t) k0 n = (k0, ns ++ [n]) :: t by
            simp [TaxonomyIndex.groupAppend], alget_cons, if_pos rfl, alget_cons, if_pos rfl]
        rfl
      · rw [show TaxonomyIndex.groupAppend ((k0, ns) :: t) k n =
            (k0, ns) :: TaxonomyIndex.groupAppend t k n by
            simp [TaxonomyIndex.groupAppend, h], alget_cons, if_neg h, alget_cons, if_neg h, ih]

/-- Appending to one group leaves other groups unchanged. -/
theorem alget_groupAppend_ne (l : List (String × List TaxonomyIndex.RawNode))
    (k k' : String) (n : TaxonomyIndex.RawNode) (h : k' ≠ k) :
    TaxonomyIndex.alget (TaxonomyIndex.groupAppend l k n) k' = TaxonomyIndex.alget l k' := by
  induction l with
  | nil =>
      rw [show TaxonomyIndex.groupAppend [] k n = [(k, [n])] from rfl, alget_cons,
        if_neg (Ne.symm h)]
  | cons p t ih =>
      obtain ⟨k0, ns⟩ := p
      by_cases h0 : k0 = k
      · subst h0
        rw [show TaxonomyIndex.groupAppend ((k0, ns) :: t) k0 n = (k0, ns ++ [n]) :: t by
            simp [TaxonomyIndex.groupAppend], alget_cons, alget_cons,
          if_neg (fun he => h he.symm), if_neg (fun he => h he.symm)]
      · rw [show TaxonomyIndex.groupAppend ((k0, ns) :: t) k n =
            (k0, ns) :: TaxonomyIndex.groupAppend t k n by
            simp [TaxonomyIndex.groupAppend, h0], alget_cons, alget_cons, ih]

/-- The grouping fold collects exactly the nodes whose parent key
matches, in input order. -/
theorem alget_group_fold (l : List TaxonomyIndex.RawNode)
    (acc : List (String × List TaxonomyIndex.RawNode)) (k : String) :
    (TaxonomyIndex.alget
        (l.foldl (fun acc n => TaxonomyIndex.groupAppend acc (TaxonomyIndex.parentKey n) n) acc)
        k).getD [] =
      (TaxonomyIndex.alget acc k).getD [] ++
        l.filter (fun n => TaxonomyIndex.parentKey n = k) := by
  induction l generalizing acc with
  | nil => simp
  | cons m t ih =>
      rw [List.foldl_cons]
      by_cases hk : TaxonomyIndex.parentKey m = k
      · rw [ih, List.filter_cons, if_pos (by simp [hk]), hk, alget_groupAppend_same]
        simp
      · rw [ih, List.filter_cons, if_neg (by simp [hk]),
          alget_groupAppend_ne _ _ _ _ fun he => hk he.symm]

/-- `alget` through a value-mapping of the association list. -/
theorem alget_map_values {α β : Type} (f : α → β) (l : List (String × α)) (k : String) :
    TaxonomyIndex.alget (l.map (fun p => (p.1, f p.2))) k =
      (TaxonomyIndex.alget l k).map f := by
  induction l with
  | nil => rfl
  | cons p t ih =>
      obtain ⟨k0, v0⟩ := p
      by_cases h : k0 = k
      · rw [List.map_cons]
        show TaxonomyIndex.alget ((k0, f v0) :: t.map (fun p => (p.1, f p.2))) k = _
        rw [alget_cons, alget_cons, if_pos h, if_pos h]
        rfl
      · rw [List.map_cons]
        show TaxonomyIndex.alget ((k0, f v0) :: t.map (fun p => (p.1, f p.2))) k = _
        rw [alget_cons, alget_cons, if_neg h, if_neg h, ih]

/-- The sibling group of `k` is the label-sorted list of the nodes whose
parent key is `k`. -/
theorem by_parent_group (nodes : List TaxonomyIndex.RawNode) (k : String) :
    (TaxonomyIndex.alget (TaxonomyIndex.by_parent_of nodes) k).getD [] =
      pySort TaxonomyIndex.labelLE
        (nodes.filter (fun n => TaxonomyIndex.parentKey n = k)) := by
  rw [TaxonomyIndex.by_parent_of, alget_map_values]
  cases h : TaxonomyIndex.alget
      (nodes.foldl
        (fun acc n => TaxonomyIndex.groupAppend acc (TaxonomyIndex.parentKey n) n) []) k with
  | none =>
      have h2 := alget_group_fold nodes [] k
      rw [h] at h2
      rw [show (TaxonomyIndex.alget ([] : List (String × List TaxonomyIndex.RawNode)) k).getD []
          = [] from rfl, List.nil_append] at h2
      rw [← h2]
      rfl
  | some g =>
      have h2 := alget_group_fold nodes [] k
      rw [h] at h2
      rw [show (TaxonomyIndex.alget ([] : List (String × List TaxonomyIndex.RawNode)) k).getD []
          = [] from rfl, List.nil_append] at h2
      rw [← h2]
      rfl

/-- The fuelled merge permutes the concatenation of its runs. -/
theorem perm_merge_lists {α : Type} (le : α → α → Bool) :
    ∀ (fuel : Nat) (l r : List α), (merge_lists le fuel l r).Perm (l ++ r)
  | 0, l, r => List.Perm.refl _
  | fuel + 1, [], r => List.Perm.refl _
  | fuel + 1, a :: l, [] => by
      rw [merge_lists, List.append_nil]
  | fuel + 1, a :: l, b :: r => by
      rw [merge_lists]
      by_cases h : le a b = true
      · rw [if_pos h]
        exact ((perm_merge_lists le fuel l (b :: r)).cons a).trans (List.Perm.refl _)
      · rw [if_neg h]
        refine ((perm_merge_lists le fuel (a :: l) r).cons b).trans ?_
        exact List.perm_middle.symm

/-- The fuelled merge sort permutes its input. -/
theorem perm_msort {α : Type} (le : α → α → Bool) :
    ∀ (fuel : Nat) (l : List α), (msort le fuel l).Perm l
  | 0, l => List.Perm.refl _
  | fuel + 1, [] => List.Perm.refl _
  | fuel + 1, [a] => List.Perm.refl _
  | fuel + 1, a :: b :: t => by
      show (merge_lists le (a :: b :: t).length
        (msort le fuel ((a :: b :: t).take (((a :: b :: t).length + 1) / 2)))
        (msort le fuel ((a :: b :: t).drop (((a :: b :: t).length + 1) / 2)))).Perm (a :: b :: t)
      refine (perm_merge_lists le _ _ _).trans ?_
      refine ((perm_msort le fuel _).append (perm_msort le fuel _)).trans ?_
      rw [List.take_append_drop]

/-- The embedded stable sort permutes its input. -/
theorem perm_pySort {α : Type} (le : α → α → Bool) (l : List α) : (pySort le l).Perm l :=
  perm_msort le l.length l

/-- `_assign_children` does nothing on a uid with no child group. -/
theorem assign_children_empty (bp : List (String × List TaxonomyIndex.RawNode))
    (nodes : List TaxonomyIndex.RawNode) (fuel : Nat) (u pc : String)
    (st : TaxonomyIndex.AssignState)
    (h : (TaxonomyIndex.alget bp u).getD [] = []) :
    TaxonomyIndex.assign_children bp nodes fuel u pc st = st := by
  cases fuel with
  | zero => rfl
  | succ f => simp [TaxonomyIndex.assign_children, h]

/-- Two folds agree when their step functions agree on the list. -/
theorem foldl_congr_mem {α β : Type} (f g : α → β → α) (l : List β) (init : α)
    (h : ∀ a, ∀ x ∈ l, f a x = g a x) : l.foldl f init = l.foldl g init := by
  induction l generalizing init with
  | nil => rfl
  | cons a t ih =>
      rw [List.foldl_cons, List.foldl_cons, h init a (List.mem_cons_self a t)]
      exact ih _ (fun b x hx => h b x (List.mem_cons_of_mem a hx))

/-- On a two-level taxonomy, one call of `_assign_children` is a plain
fold of code/rank writes over the sorted child group. -/
theorem assign_children_two_level (bp : List (String × List TaxonomyIndex.RawNode))
    (nodes : List TaxonomyIndex.RawNode) (fuel : Nat) (u pc : String)
    (st : TaxonomyIndex.AssignState)
    (hkids : ∀ child ∈ (TaxonomyIndex.alget bp u).getD [],
      (TaxonomyIndex.alget bp child.uid).getD [] = []) :
    TaxonomyIndex.assign_children bp nodes (fuel + 1) u pc st =
      ((TaxonomyIndex.alget bp u).getD []).enum.foldl
        (fun st p =>
          let top_rank := TaxonomyIndex.top_rank_of (TaxonomyIndex.uid_to_parent_of nodes)
            st.top_rank_by_uid (nodes.length + 1) u
          { code_by_uid := ReconciliationEngine.alistSet st.code_by_uid p.2.uid
              ("IAB" ++ toString top_rank ++ "-" ++ toString (p.1 + 1))
            top_rank_by_uid :=
              ReconciliationEngine.alistSet st.top_rank_by_uid p.2.uid top_rank })
        st := by
  simp only [TaxonomyIndex.assign_children]
  refine foldl_congr_mem _ _ _ _ ?_
  intro a x hx
  exact assign_children_empty bp nodes fuel x.2.uid _ _
    (hkids x.2 (List.snd_mem_of_mem_enumFrom hx))

/-- The child-group write fold leaves other uids' entries unchanged. -/
theorem kids_fold_frame (u2p : List (String × Option String)) (fl : Nat) (u : String)
    (ks : List TaxonomyIndex.RawNode) (a : Nat) (st : TaxonomyIndex.AssignState) (w : String)
    (hw : ∀ k ∈ ks, k.uid ≠ w) :
    TaxonomyIndex.alget ((List.enumFrom a ks).foldl
      (fun st p =>
        let top_rank := TaxonomyIndex.top_rank_of u2p st.top_rank_by_uid (fl + 1) u
        { code_by_uid := ReconciliationEngine.alistSet st.code_by_uid p.2.uid
            ("IAB" ++ toString top_rank ++ "-" ++ toString (p.1 + 1))
          top_rank_by_uid :=
            ReconciliationEngine.alistSet st.top_rank_by_uid p.2.uid top_rank })
      st).code_by_uid w = TaxonomyIndex.alget st.code_by_uid w ∧
    TaxonomyIndex.alget ((List.enumFrom a ks).foldl
      (fun st p =>
        let top_rank := TaxonomyIndex.top_rank_of u2p st.top_rank_by_uid (fl + 1) u
        { code_by_uid := ReconciliationEngine.alistSet st.code_by_uid p.2.uid
            ("IAB" ++ toString top_rank ++ "-" ++ toString (p.1 + 1))
          top_rank_by_uid :=
            ReconciliationEngine.alistSet st.top_rank_by_uid p.2.uid top_rank })
      st).top_rank_by_uid w = TaxonomyIndex.alget st.top_rank_by_uid w := by
  induction ks generalizing a st with
  | nil => exact ⟨rfl, rfl⟩
  | cons k t ih =>
      rw [show List.enumFrom a (k :: t) = (a, k) :: List.enumFrom (a + 1) t from rfl,
        List.foldl_cons]
      have hk := hw k (List.mem_cons_self k t)
      obtain ⟨ih1, ih2⟩ := ih (a + 1) _ (fun x hx => hw x (List.mem_cons_of_mem k hx))
      refine ⟨ih1.trans ?_, ih2.trans ?_⟩
      · exact alget_alistSet_ne _ _ _ _ fun he => hk he.symm
      · exact alget_alistSet_ne _ _ _ _ fun he => hk he.symm

/-- The j-th child of the sorted group receives the code built from the
recorded top rank and its 1-based position. -/
theorem kids_fold_code (u2p : List (String × Option String)) (fl : Nat) (u : String)
    (ks : List TaxonomyIndex.RawNode) (a : Nat) (st : TaxonomyIndex.AssignState)
    (rk : Nat) (j : Nat) (c : TaxonomyIndex.RawNode)
    (hu2p : TaxonomyIndex.alget u2p u = some none)
    (hrk : TaxonomyIndex.alget st.top_rank_by_uid u = some rk)
    (hku : ∀ k ∈ ks, k.uid ≠ u)
    (hnd : (ks.map TaxonomyIndex.RawNode.uid).Nodup)
    (hj : ks.get? j = some c) :
    TaxonomyIndex.alget ((List.enumFrom a ks).foldl
      (fun st p =>
        let top_rank := TaxonomyIndex.top_rank_of u2p st.top_rank_by_uid (fl + 1) u
        { code_by_uid := ReconciliationEngine.alistSet st.code_by_uid p.2.uid
            ("IAB" ++ toString top_rank ++ "-" ++ toString (p.1 + 1))
          top_rank_by_uid :=
            ReconciliationEngine.alistSet st.top_rank_by_uid p.2.uid top_rank })
      st).code_by_uid c.uid =
      some ("IAB" ++ toString rk ++ "-" ++ toString (a + j + 1)) := by
  induction ks generalizing a st j with
  | nil => simp at hj
  | cons k t ih =>
      rw [show List.enumFrom a (k :: t) = (a, k) :: List.enumFrom (a + 1) t from rfl,
        List.foldl_cons]
      have hrank : TaxonomyIndex.top_rank_of u2p st.top_rank_by_uid (fl + 1) u = rk := by
        rw [top_rank_of_root _ _ _ _ hu2p, hrk]
        rfl
      rw [List.map_cons, List.nodup_cons] at hnd
      cases j with
      | zero =>
          have hkc : k = c := by simpa using hj
          subst hkc
          have hts : ∀ x ∈ t, x.uid ≠ k.uid := by
            intro x hx he
            exact hnd.1 (he ▸ List.mem_map_of_mem _ hx)
          obtain ⟨hframe, _⟩ := kids_fold_frame u2p fl u t (a + 1) _ k.uid hts
          rw [hframe]
          show TaxonomyIndex.alget (ReconciliationEngine.alistSet st.code_by_uid k.uid
            ("IAB" ++ toString (TaxonomyIndex.top_rank_of u2p st.top_rank_by_uid (fl + 1) u)
              ++ "-" ++ toString (a + 1))) k.uid = _
          rw [alget_alistSet_same, hrank]
      | succ j' =>
          have hj' : t.get? j' = some c := by simpa using hj
          have harith : a + 1 + j' + 1 = a + (j' + 1) + 1 := by omega
          have hrk2 : TaxonomyIndex.alget
              (ReconciliationEngine.alistSet st.top_rank_by_uid k.uid
                (TaxonomyIndex.top_rank_of u2p st.top_rank_by_uid (fl + 1) u)) u =
              some rk := by
            rw [alget_alistSet_ne _ _ _ _
              (fun he => hku k (List.mem_cons_self k t) he.symm), hrk]
          have hstep := ih (a + 1)
            { code_by_uid := ReconciliationEngine.alistSet st.code_by_uid k.uid
                ("IAB" ++ toString
                    (TaxonomyIndex.top_rank_of u2p st.top_rank_by_uid (fl + 1) u) ++
                  "-" ++ toString (a + 1))
              top_rank_by_uid := ReconciliationEngine.alistSet st.top_rank_by_uid k.uid
                (TaxonomyIndex.top_rank_of u2p st.top_rank_by_uid (fl + 1) u) }
            j' hrk2 (fun x hx => hku x (List.mem_cons_of_mem k hx)) hnd.2 hj'
          rw [← harith]
          exact hstep

/-- In a two-level taxonomy, a non-root node has no child group. -/
theorem nonroot_group_empty (nodes : List TaxonomyIndex.RawNode)
    (htwo : ∀ n ∈ nodes, ∀ m ∈ nodes, n.parent_uid = some m.uid → m.parent_uid = none)
    (hnr : ∀ n ∈ nodes, n.uid ≠ "__ROOT__" ∧ n.uid ≠ "")
    (c : TaxonomyIndex.RawNode) (hc : c ∈ nodes) (hcp : c.parent_uid ≠ none) :
    nodes.filter (fun n => TaxonomyIndex.parentKey n = c.uid) = [] := by
  rw [List.filter_eq_nil_iff]
  intro d hd hpred
  have hpk : TaxonomyIndex.parentKey d = c.uid := by simpa using hpred
  rcases hdp : d.parent_uid with _ | p
  · simp only [TaxonomyIndex.parentKey, hdp] at hpk
    exact (hnr c hc).1 hpk.symm
  · simp only [TaxonomyIndex.parentKey, hdp] at hpk
    by_cases hp : p = ""
    · rw [if_pos hp] at hpk
      exact (hnr c hc).1 hpk.symm
    · rw [if_neg hp] at hpk
      rw [hpk] at hdp
      exact hcp (htwo d hd c hc hdp)

/-- `parentKey` of a node pointing at a nonempty parent uid. -/
theorem parentKey_some (n : TaxonomyIndex.RawNode) (p : String)
    (h : n.parent_uid = some p) (hp : p ≠ "") : TaxonomyIndex.parentKey n = p := by
  simp only [TaxonomyIndex.parentKey, h, if_neg hp]

/-- Conversely, a parent key that is neither `__ROOT__` nor empty comes
from the node's parent pointer. -/
theorem parent_uid_of_parentKey (n : TaxonomyIndex.RawNode) (k : String)
    (h : TaxonomyIndex.parentKey n = k) (hk1 : k ≠ "__ROOT__") :
    n.parent_uid = some k := by
  rcases hnp : n.parent_uid with _ | p
  · simp only [TaxonomyIndex.parentKey, hnp] at h
    exact absurd h.symm hk1
  · simp only [TaxonomyIndex.parentKey, hnp] at h
    by_cases hp : p = ""
    · rw [if_pos hp] at h
      exact absurd h.symm hk1
    · rw [if_neg hp] at h
      rw [h]

/-- `kids_fold_frame` at the start of the enumeration. -/
theorem kids_fold_frame0 (u2p : List (String × Option String)) (fl : Nat) (u : String)
    (ks : List TaxonomyIndex.RawNode) (st : TaxonomyIndex.AssignState) (w : String)
    (hw : ∀ k ∈ ks, k.uid ≠ w) :
    TaxonomyIndex.alget (ks.enum.foldl
      (fun st p =>
        let top_rank := TaxonomyIndex.top_rank_of u2p st.top_rank_by_uid (fl + 1) u
        { code_by_uid := ReconciliationEngine.alistSet st.code_by_uid p.2.uid
            ("IAB" ++ toString top_rank ++ "-" ++ toString (p.1 + 1))
          top_rank_by_uid :=
            ReconciliationEngine.alistSet st.top_rank_by_uid p.2.uid top_rank })
      st).code_by_uid w = TaxonomyIndex.alget st.code_by_uid w :=
  (kids_fold_frame u2p fl u ks 0 st w hw).1

/-- `kids_fold_code` at the start of the enumeration. -/
theorem kids_fold_code0 (u2p : List (String × Option String)) (fl : Nat) (u : String)
    (ks : List TaxonomyIndex.RawNode) (st : TaxonomyIndex.AssignState)
    (rk : Nat) (j : Nat) (c : TaxonomyIndex.RawNode)
    (hu2p : TaxonomyIndex.alget u2p u = some none)
    (hrk : TaxonomyIndex.alget st.top_rank_by_uid u = some rk)
    (hku : ∀ k ∈ ks, k.uid ≠ u)
    (hnd : (ks.map TaxonomyIndex.RawNode.uid).Nodup)
    (hj : ks.get? j = some c) :
    TaxonomyIndex.alget (ks.enum.foldl
      (fun st p =>
        let top_rank := TaxonomyIndex.top_rank_of u2p st.top_rank_by_uid (fl + 1) u
        { code_by_uid := ReconciliationEngine.alistSet st.code_by_uid p.2.uid
            ("IAB" ++ toString top_rank ++ "-" ++ toString (p.1 + 1))
          top_rank_by_uid :=
            ReconciliationEngine.alistSet st.top_rank_by_uid p.2.uid top_rank })
      st).code_by_uid c.uid = some ("IAB" ++ toString rk ++ "-" ++ toString (j + 1)) := by
  have h0 : (0 : Nat) + j + 1 = j + 1 := by omega
  have hres := kids_fold_code u2p fl u ks 0 st rk j c hu2p hrk hku hnd hj
  rw [h0] at hres
  exact hres

/-- Later root iterations do not disturb codes at uids they never
touch. -/
theorem roots_fold_frame (nodes : List TaxonomyIndex.RawNode)
    (post : List (Nat × TaxonomyIndex.RawNode)) (st : TaxonomyIndex.AssignState) (w : String)
    (hw : ∀ q ∈ post, q.2.uid ≠ w ∧
      ∀ k ∈ (TaxonomyIndex.alget (TaxonomyIndex.by_parent_of nodes) q.2.uid).getD [],
        k.uid ≠ w)
    (hkids : ∀ q ∈ post,
      ∀ child ∈ (TaxonomyIndex.alget (TaxonomyIndex.by_parent_of nodes) q.2.uid).getD [],
        (TaxonomyIndex.alget (TaxonomyIndex.by_parent_of nodes) child.uid).getD [] = []) :
    TaxonomyIndex.alget ((post.foldl
      (fun st p =>
        TaxonomyIndex.assign_children (TaxonomyIndex.by_parent_of nodes) nodes
          (nodes.length + 1) p.2.uid ("IAB" ++ toString (p.1 + 1))
          { code_by_uid := ReconciliationEngine.alistSet st.code_by_uid p.2.uid
              ("IAB" ++ toString (p.1 + 1))
            top_rank_by_uid :=
              ReconciliationEngine.alistSet st.top_rank_by_uid p.2.uid (p.1 + 1) })
      st).code_by_uid) w = TaxonomyIndex.alget st.code_by_uid w := by
  induction post generalizing st with
  | nil => rfl
  | cons q t ih =>
      rw [List.foldl_cons,
        ih _ (fun x hx => hw x (List.mem_cons_of_mem q hx))
          (fun x hx => hkids x (List.mem_cons_of_mem q hx)),
        assign_children_two_level _ _ _ _ _ _ (hkids q (List.mem_cons_self q t)),
        kids_fold_frame0 _ _ _ _ _ _ (hw q (List.mem_cons_self q t)).2]
      show TaxonomyIndex.alget (ReconciliationEngine.alistSet st.code_by_uid q.2.uid
        ("IAB" ++ toString (q.1 + 1))) w = _
      rw [alget_alistSet_ne _ _ _ _
        (fun he => (hw q (List.mem_cons_self q t)).1 he.symm)]

/-- Membership in a sibling group of `by_parent`. -/
theorem by_parent_mem (nodes : List TaxonomyIndex.RawNode) (u : String)
    (k : TaxonomyIndex.RawNode)
    (hk : k ∈ (TaxonomyIndex.alget (TaxonomyIndex.by_parent_of nodes) u).getD []) :
    k ∈ nodes ∧ TaxonomyIndex.parentKey k = u := by
  rw [by_parent_group] at hk
  have h1 := (perm_pySort TaxonomyIndex.labelLE _).mem_iff.mp hk
  have h2 := List.mem_filter.mp h1
  exact ⟨h2.1, by simpa using h2.2⟩

/-- Membership in the sorted roots list. -/
theorem roots_of_mem (nodes : List TaxonomyIndex.RawNode) (x : TaxonomyIndex.RawNode)
    (hx : x ∈ TaxonomyIndex.roots_of nodes) : x ∈ nodes ∧ x.parent_uid = none := by
  rw [TaxonomyIndex.roots_of] at hx
  have h1 := (perm_pySort TaxonomyIndex.labelLE _).mem_iff.mp hx
  have h2 := List.mem_filter.mp h1
  exact ⟨h2.1, by simpa using h2.2⟩

/-- The sorted roots carry pairwise distinct uids. -/
theorem roots_of_nodup (nodes : List TaxonomyIndex.RawNode)
    (hnd : (nodes.map TaxonomyIndex.RawNode.uid).Nodup) :
    ((TaxonomyIndex.roots_of nodes).map TaxonomyIndex.RawNode.uid).Nodup := by
  rw [TaxonomyIndex.roots_of,
    ((perm_pySort TaxonomyIndex.labelLE _).map TaxonomyIndex.RawNode.uid).nodup_iff]
  exact hnd.sublist ((List.filter_sublist nodes).map TaxonomyIndex.RawNode.uid)

/-- A sorted sibling group carries pairwise distinct uids. -/
theorem by_parent_nodup (nodes : List TaxonomyIndex.RawNode) (u : String)
    (hnd : (nodes.map TaxonomyIndex.RawNode.uid).Nodup) :
    (((TaxonomyIndex.alget (TaxonomyIndex.by_parent_of nodes) u).getD []).map
      TaxonomyIndex.RawNode.uid).Nodup := by
  rw [by_parent_group,
    ((perm_pySort TaxonomyIndex.labelLE _).map TaxonomyIndex.RawNode.uid).nodup_iff]
  exact hnd.sublist ((List.filter_sublist nodes).map TaxonomyIndex.RawNode.uid)

/-- Code assignment for a root and one of its children in a two-level
taxonomy: the `i`-th sorted root receives `IAB{i+1}` and its `j`-th
sorted child receives `IAB{i+1}-{j+1}`. -/
theorem assign_codes_child (nodes : List TaxonomyIndex.RawNode)
    (hnd : (nodes.map TaxonomyIndex.RawNode.uid).Nodup)
    (hnr : ∀ n ∈ nodes, n.uid ≠ "__ROOT__" ∧ n.uid ≠ "")
    (htwo : ∀ n ∈ nodes, ∀ m ∈ nodes, n.parent_uid = some m.uid → m.parent_uid = none)
    (r c : TaxonomyIndex.RawNode) (hr : r ∈ nodes) (hrp : r.parent_uid = none)
    (hc : c ∈ nodes) (hcp : c.parent_uid = some r.uid)
    (i j : Nat)
    (hi : (TaxonomyIndex.roots_of nodes).get? i = some r)
    (hj : ((TaxonomyIndex.alget (TaxonomyIndex.by_parent_of nodes) r.uid).getD []).get? j =
      some c) :
    TaxonomyIndex.alget (TaxonomyIndex.assign_codes nodes).code_by_uid c.uid =
      some ("IAB" ++ toString (i + 1) ++ "-" ++ toString (j + 1)) ∧
    TaxonomyIndex.alget (TaxonomyIndex.assign_codes nodes).code_by_uid r.uid =
      some ("IAB" ++ toString (i + 1)) := by
  have hinj : ∀ x ∈ nodes, ∀ y ∈ nodes, x.uid = y.uid → x = y :=
    fun x hx y hy hxy => List.inj_on_of_nodup_map hnd hx hy hxy
  have hkid_par : ∀ k ∈ (TaxonomyIndex.alget (TaxonomyIndex.by_parent_of nodes) r.uid).getD [],
      k.parent_uid = some r.uid := fun k hk =>
    parent_uid_of_parentKey k r.uid (by_parent_mem nodes r.uid k hk).2 (hnr r hr).1
  have hku : ∀ k ∈ (TaxonomyIndex.alget (TaxonomyIndex.by_parent_of nodes) r.uid).getD [],
      k.uid ≠ r.uid := by
    intro k hk he
    have hkr : k = r := hinj k (by_parent_mem nodes r.uid k hk).1 r hr he
    have h2 := hkid_par k hk
    rw [hkr, hrp] at h2
    cases h2
  have hkempty : ∀ child ∈ (TaxonomyIndex.alget (TaxonomyIndex.by_parent_of nodes) r.uid).getD [],
      (TaxonomyIndex.alget (TaxonomyIndex.by_parent_of nodes) child.uid).getD [] = [] := by
    intro child hk
    rw [by_parent_group,
      nonroot_group_empty nodes htwo hnr child (by_parent_mem nodes r.uid child hk).1
        (by rw [hkid_par child hk]; simp)]
    rfl
  have hu2p : TaxonomyIndex.alget (TaxonomyIndex.uid_to_parent_of nodes) r.uid = some none := by
    have h2 := alget_uid_to_parent nodes hnd r hr
    rw [hrp] at h2
    exact h2
  obtain ⟨hlen, hget⟩ := List.get?_eq_some.mp hi
  have hsplit : TaxonomyIndex.roots_of nodes =
      (TaxonomyIndex.roots_of nodes).take i ++ r :: (TaxonomyIndex.roots_of nodes).drop (i + 1) := by
    conv_lhs => rw [← List.take_append_drop i (TaxonomyIndex.roots_of nodes)]
    rw [List.drop_eq_get_cons hlen, hget]
  have htklen : ((TaxonomyIndex.roots_of nodes).take i).length = i := by
    rw [List.length_take]
    omega
  have hdrop_ne : ∀ x ∈ (TaxonomyIndex.roots_of nodes).drop (i + 1), x.uid ≠ r.uid := by
    have h2 := roots_of_nodup nodes hnd
    rw [hsplit, List.map_append, List.map_cons] at h2
    have h3 := (List.nodup_append.mp h2).2.1
    rw [List.nodup_cons] at h3
    intro x hx he
    exact h3.1 (he ▸ List.mem_map_of_mem _ hx)
  have hdrop_roots : ∀ x ∈ (TaxonomyIndex.roots_of nodes).drop (i + 1),
      x ∈ nodes ∧ x.parent_uid = none := fun x hx =>
    roots_of_mem nodes x (List.drop_subset _ _ hx)
  have hpost_kids : ∀ q ∈ List.enumFrom (i + 1) ((TaxonomyIndex.roots_of nodes).drop (i + 1)),
      ∀ child ∈ (TaxonomyIndex.alget (TaxonomyIndex.by_parent_of nodes) q.2.uid).getD [],
        (TaxonomyIndex.alget (TaxonomyIndex.by_parent_of nodes) child.uid).getD [] = [] := by
    intro q hq child hk
    have hq2 := hdrop_roots q.2 (List.snd_mem_of_mem_enumFrom hq)
    have hcm := by_parent_mem nodes q.2.uid child hk
    have hcpu : child.parent_uid = some q.2.uid :=
      parent_uid_of_parentKey child q.2.uid hcm.2 (hnr q.2 hq2.1).1
    rw [by_parent_group,
      nonroot_group_empty nodes htwo hnr child hcm.1 (by rw [hcpu]; simp)]
    rfl
  have hpost_c : ∀ q ∈ List.enumFrom (i + 1) ((TaxonomyIndex.roots_of nodes).drop (i + 1)),
      q.2.uid ≠ c.uid ∧
      ∀ k ∈ (TaxonomyIndex.alget (TaxonomyIndex.by_parent_of nodes) q.2.uid).getD [],
        k.uid ≠ c.uid := by
    intro q hq
    have hq2 := hdrop_roots q.2 (List.snd_mem_of_mem_enumFrom hq)
    constructor
    · intro he
      have hqc : q.2 = c := hinj q.2 hq2.1 c hc he
      rw [hqc, hcp] at hq2
      cases hq2.2
    · intro k hk he
      have hkc : k = c := hinj k (by_parent_mem nodes q.2.uid k hk).1 c hc he
      have hpk := (by_parent_mem nodes q.2.uid k hk).2
      rw [hkc, parentKey_some c r.uid hcp (hnr r hr).2] at hpk
      have hqr : q.2 = r := hinj q.2 hq2.1 r hr (by rw [hpk])
      exact hdrop_ne q.2 (List.snd_mem_of_mem_enumFrom hq) (by rw [hqr]) 
  have hpost_r : ∀ q ∈ List.enumFrom (i + 1) ((TaxonomyIndex.roots_of nodes).drop (i + 1)),
      q.2.uid ≠ r.uid ∧
      ∀ k ∈ (TaxonomyIndex.alget (TaxonomyIndex.by_parent_of nodes) q.2.uid).getD [],
        k.uid ≠ r.uid := by
    intro q hq
    have hq2 := hdrop_roots q.2 (List.snd_mem_of_mem_enumFrom hq)
    refine ⟨hdrop_ne q.2 (List.snd_mem_of_mem_enumFrom hq), ?_⟩
    intro k hk he
    have hkr : k = r := hinj k (by_parent_mem nodes q.2.uid k hk).1 r hr he
    have hpk := (by_parent_mem nodes q.2.uid k hk).2
    rw [hkr] at hpk
    rw [TaxonomyIndex.parentKey, hrp] at hpk
    exact (hnr q.2 hq2.1).1 hpk.symm
  have henum : (TaxonomyIndex.roots_of nodes).enum =
      List.enumFrom 0 ((TaxonomyIndex.roots_of nodes).take i) ++
        (i, r) :: List.enumFrom (i + 1) ((TaxonomyIndex.roots_of nodes).drop (i + 1)) := by
    show List.enumFrom 0 (TaxonomyIndex.roots_of nodes) = _
    conv_lhs => rw [hsplit]
    rw [List.enumFrom_append, htklen, Nat.zero_add]
    rfl
  simp only [TaxonomyIndex.assign_codes]
  rw [henum, List.foldl_append, List.foldl_cons]
  constructor
  · rw [roots_fold_frame nodes _ _ c.uid hpost_c hpost_kids,
      assign_children_two_level _ _ _ _ _ _ hkempty]
    exact kids_fold_code0 (TaxonomyIndex.uid_to_parent_of nodes) nodes.length r.uid _ _
      (i + 1) j c hu2p (alget_alistSet_same _ _ _) hku (by_parent_nodup nodes r.uid hnd) hj
  · rw [roots_fold_frame nodes _ _ r.uid hpost_r hpost_kids,
      assign_children_two_level _ _ _ _ _ _ hkempty,
      kids_fold_frame0 _ _ _ _ _ _ hku]
    exact alget_alistSet_same _ _ _

/-- The filler uids are pairwise distinct: their underlying character
lists have distinct lengths. -/
theorem fuid_inj : Function.Injective fuid := by
  intro i j h
  have hd : List.replicate (i + 1) 'f' = List.replicate (j + 1) 'f' :=
    congrArg String.data h
  have hl := congrArg List.length hd
  simp only [List.length_replicate] at hl
  omega

/-- No filler uid equals `"1"`. -/
theorem fuid_ne_one (i : Nat) : fuid i ≠ "1" := by
  intro h
  have hd : List.replicate (i + 1) 'f' = ['1'] := congrArg String.data h
  rw [List.replicate_succ] at hd
  exact absurd (List.head_eq_of_cons_eq hd) (by decide)

/-- No filler uid equals `"2"`. -/
theorem fuid_ne_two (i : Nat) : fuid i ≠ "2" := by
  intro h
  have hd : List.replicate (i + 1) 'f' = ['2'] := congrArg String.data h
  rw [List.replicate_succ] at hd
  exact absurd (List.head_eq_of_cons_eq hd) (by decide)

/-- The uids of `dNodes` are pairwise distinct. -/
theorem dNodes_uid_nodup : (dNodes.map TaxonomyIndex.RawNode.uid).Nodup := by
  have hmap : dNodes.map TaxonomyIndex.RawNode.uid =
      "1" :: "2" :: (List.range 198).map fuid := by
    simp only [dNodes, List.map_cons, List.map_map]
    rfl
  rw [hmap]
  refine List.nodup_cons.mpr ⟨?_, List.nodup_cons.mpr ⟨?_, ?_⟩⟩
  · intro hmem
    rcases List.mem_cons.mp hmem with h | h
    · exact absurd h (by decide)
    · rcases List.mem_map.mp h with ⟨i, _, hfi⟩
      exact fuid_ne_one i hfi
  · intro hmem
    rcases List.mem_map.mp hmem with ⟨i, _, hfi⟩
    exact fuid_ne_two i hfi
  · exact (List.nodup_range 198).map fuid_inj

/-- A taxonomy is two-level as soon as every node's parent is either
absent or one designated root uid `p`, and every node carrying uid `p`
is itself a root: then the parent of any node is always a root. -/
theorem two_level_of (nodes : List TaxonomyIndex.RawNode) (p : String)
    (h1 : ∀ n ∈ nodes, n.parent_uid = none ∨ n.parent_uid = some p)
    (h2 : ∀ m ∈ nodes, m.uid = p → m.parent_uid = none) :
    ∀ n ∈ nodes, ∀ m ∈ nodes, n.parent_uid = some m.uid → m.parent_uid = none := by
  intro n hn m hm hnm
  rcases h1 n hn with h | h
  · rw [h] at hnm
    exact Option.noConfusion hnm
  · rw [h] at hnm
    injection hnm with he
    exact h2 m hm he.symm

/-- C1: (corrected) in a two-level taxonomy with pairwise-distinct,
non-reserved uids, the child code does obey the claimed invariant: the
`j`-th label-sorted child of the `i`-th label-sorted root is entered
with code `IAB{i+1}-{j+1}`, which starts with its parent's code `IAB{i+1}`
followed by a dash, and whose numeric suffix `j+1` is its 1-based rank
among its sorted siblings.  (At depth three and below the invariant
fails: see the counterexample.) -/
theorem C1_code_prefix_rank (nodes : List TaxonomyIndex.RawNode)
    (hnd : (nodes.map TaxonomyIndex.RawNode.uid).Nodup)
    (hnr : ∀ n ∈ nodes, n.uid ≠ "__ROOT__" ∧ n.uid ≠ "")
    (htwo : ∀ n ∈ nodes, ∀ m ∈ nodes, n.parent_uid = some m.uid → m.parent_uid = none)
    (r c : TaxonomyIndex.RawNode) (hr : r ∈ nodes) (hrp : r.parent_uid = none)
    (hc : c ∈ nodes) (hcp : c.parent_uid = some r.uid)
    (i j : Nat)
    (hi : (TaxonomyIndex.roots_of nodes).get? i = some r)
    (hj : ((TaxonomyIndex.alget (TaxonomyIndex.by_parent_of nodes) r.uid).getD []).get? j =
      some c)
    (hlen : 200 ≤ nodes.length) :
    ∃ es, TaxonomyIndex.parse_iab_tsv_nodes nodes = Except.ok es ∧
      ({ code := some ("IAB" ++ toString (i + 1) ++ "-" ++ toString (j + 1)),
         label := c.label, path := c.path, level := c.level,
         parent := some ("IAB" ++ toString (i + 1)) } : TaxonomyIndex.TaxEntry) ∈ es ∧
      pyStartsWith ("IAB" ++ toString (i + 1) ++ "-" ++ toString (j + 1))
        (("IAB" ++ toString (i + 1)) ++ "-") = true := by
  obtain ⟨hcc, hcr⟩ := assign_codes_child nodes hnd hnr htwo r c hr hrp hc hcp i j hi hj
  have hparse : TaxonomyIndex.parse_iab_tsv_nodes nodes = Except.ok (nodes.map
      (fun n =>
        { code := TaxonomyIndex.alget (TaxonomyIndex.assign_codes nodes).code_by_uid n.uid
          label := n.label
          path := n.path
          level := n.level
          parent :=
            match n.parent_uid with
            | some pu =>
                if pu = "" then none
                else TaxonomyIndex.alget (TaxonomyIndex.assign_codes nodes).code_by_uid pu
            | none => none : TaxonomyIndex.TaxEntry })) := by
    simp only [TaxonomyIndex.parse_iab_tsv_nodes]
    rw [if_neg (by simp only [List.length_map]; omega)]
  refine ⟨_, hparse, ?_, ?_⟩
  · refine List.mem_map.mpr ⟨c, hc, ?_⟩
    simp only [hcp, hcc]
    rw [if_neg (hnr r hr).2, hcr]
  · show ((("IAB" ++ toString (i + 1)) ++ "-").toList).isPrefixOf
      (("IAB" ++ toString (i + 1) ++ "-" ++ toString (j + 1)).toList) = true
    rw [List.isPrefixOf_iff_prefix]
    exact List.prefix_append _ _

set_option maxHeartbeats 1000000 in
/-- C1 witness: in the two-level 200-node taxonomy `dNodes`, the first
sorted root `A` gets code `IAB1` and its only child `B` gets `IAB1-1`,
which starts with the parent code followed by a dash and carries rank 1. -/
theorem C1_code_prefix_rank_witness :
    ∃ es, TaxonomyIndex.parse_iab_tsv_nodes dNodes = Except.ok es ∧
      ({ code := some ("IAB" ++ toString (0 + 1) ++ "-" ++ toString (0 + 1)),
         label := "B", path := ["A", "B"], level := 2,
         parent := some ("IAB" ++ toString (0 + 1)) } : TaxonomyIndex.TaxEntry) ∈ es ∧
      pyStartsWith ("IAB" ++ toString (0 + 1) ++ "-" ++ toString (0 + 1))
        (("IAB" ++ toString (0 + 1)) ++ "-") = true :=
  C1_code_prefix_rank dNodes dNodes_uid_nodup (by decide)
    (two_level_of dNodes "1" (by decide) (by decide))
    ⟨"1", none, "A", ["A"], 1⟩ ⟨"2", some "1", "B", ["A", "B"], 2⟩
    (by decide) rfl (by decide) rfl 0 0 rfl rfl (by decide)

end Contentive
